import Mathlib

/-!
# Verification of the rivo-mu compiler back-end core

A shallow embedding, in Lean 4, of the closure-conversion / lambda-lifting
pipeline (`src/hir/cc.rs`, over the trees of `src/hir/trees.rs`) and of the
LIR-to-LLVM emitter (`src/gen/llvm_gen.rs`), together with theorems settling
the structural claims of the specification.

Modelling conventions:

* `Name` is modelled as `ℕ`.  `Name::new(string)` interns strings: the two
  interned strings the relevant code uses, `"fun"` and `"env"`, are given the
  fixed codes 0 and 1.  `Name::fresh(prefix)` draws from a process-global
  monotonic counter; we thread the counter explicitly and drop the prefix
  (which is used only for rendering), so `fresh` at counter `c` returns name
  `c` and bumps the counter.
* Rust `Vec<T>` fields of the recursive tree types are embedded as custom
  mutual list types (`ExpList`, `FieldList`, ...) so that all recursion is
  structural; they are isomorphic to `List T`.
* Machine integer literal payloads are carried as `Int` and float payloads as
  `ℕ` bit patterns; no pass under verification ever computes with them, they
  are only moved around.
* Fallible code (`panic!`, `unreachable!`, `unimplemented!`) is embedded with
  `Option` / `Except`.
-/

/-- Names (`common::names::Name`): interned identifiers, modelled as `ℕ`.
`Name::new("fun") = 0`, `Name::new("env") = 1`; `Name::fresh(_)` at global
counter `c` yields `c`. -/
abbrev Name : Type := ℕ

/-- The interned name `Name::new("fun")`. -/
def funName : Name := 0

/-- The interned name `Name::new("env")`. -/
def envName : Name := 1

namespace hir

/-! ## HIR types (`hir::trees::Type`)

`Struct` fields are parameter lists; `Fun` carries a return type and argument
types.  The `Vec` fields are embedded as the mutual list types `TyList` and
`ParamList`. -/

mutual
inductive Ty where
  | I8 : Ty
  | I16 : Ty
  | I32 : Ty
  | I64 : Ty
  | F32 : Ty
  | F64 : Ty
  | Bool : Ty
  | Void : Ty
  | Array : Ty → Ty
  | Struct : ParamList → Ty
  | Fun : Ty → TyList → Ty
  | Union : TyList → Ty
  | Box : Ty
inductive TyList where
  | nil : TyList
  | cons : Ty → TyList → TyList
inductive Param where
  | mk : Ty → Name → Param
inductive ParamList where
  | nil : ParamList
  | cons : Param → ParamList → ParamList
end
deriving instance DecidableEq for Ty, TyList, Param, ParamList

/-- `Param.ty` field accessor. -/
def Param.ty : Param → Ty
  | .mk t _ => t

/-- `Param.name` field accessor. -/
def Param.name : Param → Name
  | .mk _ n => n

/-- Append on embedded type lists (`Vec::extend` / `push`). -/
def TyList.append : TyList → TyList → TyList
  | .nil, ys => ys
  | .cons x xs, ys => .cons x (TyList.append xs ys)

/-- Append on embedded parameter lists. -/
def ParamList.append : ParamList → ParamList → ParamList
  | .nil, ys => ys
  | .cons x xs, ys => .cons x (ParamList.append xs ys)

/-- The names bound by a parameter list, as a `Finset`. -/
def ParamList.names : ParamList → Finset Name
  | .nil => ∅
  | .cons p ps => insert p.name (ParamList.names ps)

/-- The types of a parameter list (`params.iter().map(|p| p.ty.clone())`). -/
def ParamList.types : ParamList → TyList
  | .nil => .nil
  | .cons p ps => .cons p.ty (ParamList.types ps)

/-! ## HIR literals (`hir::trees::Lit`) -/

/-- HIR literals.  Integer payloads are `Int`, float payloads are ℕ bit
patterns (never interpreted by the passes under verification). -/
inductive Lit where
  | I8 : Int → Lit
  | I16 : Int → Lit
  | I32 : Int → Lit
  | I64 : Int → Lit
  | F32 : ℕ → Lit
  | F64 : ℕ → Lit
  | Bool : Bool → Lit
deriving DecidableEq

/-! ## HIR operator families (`hir::ops`)

The HIR passes under verification (`fv`, `convert`, `subst`, `lift`) treat
operators opaquely (copied, never inspected), so a single abstract carrier
suffices for each family. -/

/-- HIR binary operators, carried opaquely by the closure-conversion passes. -/
abbrev Bop : Type := ℕ

/-- HIR unary operators, carried opaquely by the closure-conversion passes. -/
abbrev Uop : Type := ℕ

/-! ## HIR expression trees (`hir::trees::Exp` / `Stm` / `Field`)

The closure-conversion pass (`cc.rs`) matches exactly the constructors below:
its `FV`, `CC` and `Substitute` impls have no arms for the `Global` /
`Function` constructors that `trees.rs` additionally declares, so those two
constructors do not participate in the pipeline under verification and are
omitted from the embedding. -/

mutual
inductive Exp where
  | NewArray : Ty → Exp → Exp
  | ArrayLit : Ty → ExpList → Exp
  | ArrayLoad : Bool → Ty → Exp → Exp → Exp
  | ArrayLength : Exp → Exp
  | Lit : Lit → Exp
  | Call : Ty → Name → ExpList → Exp
  | Var : Name → Ty → Exp
  | Binary : Bop → Exp → Exp → Exp
  | Unary : Uop → Exp → Exp
  | Seq : Stm → Exp → Exp
  | Let : FieldList → Exp → Exp
  | Lambda : Ty → ParamList → Exp → Exp
  | Apply : Ty → Exp → ExpList → Exp
  | StructLit : FieldList → Exp
  | StructLoad : Ty → Exp → Name → Exp
  | Box : Ty → Exp → Exp
  | Unbox : Ty → Exp → Exp
  | Cast : Ty → Exp → Exp
inductive ExpList where
  | nil : ExpList
  | cons : Exp → ExpList → ExpList
inductive Stm where
  | IfElse : Exp → Stm → Stm → Stm
  | IfThen : Exp → Stm → Stm
  | While : Exp → Stm → Stm
  | Return : Exp → Stm
  | Block : StmList → Stm
  | Eval : Exp → Stm
  | Assign : Ty → Name → Exp → Stm
  | ArrayAssign : Bool → Ty → Exp → Exp → Exp → Stm
  | StructAssign : Ty → Exp → Name → Exp → Stm
inductive StmList where
  | nil : StmList
  | cons : Stm → StmList → StmList
inductive Field where
  | mk : Param → Exp → Field
inductive FieldList where
  | nil : FieldList
  | cons : Field → FieldList → FieldList
end
deriving instance DecidableEq for Exp, ExpList, Stm, StmList, Field, FieldList

/-- `Field.param` accessor. -/
def Field.param : Field → Param
  | .mk p _ => p

/-- `Field.exp` accessor. -/
def Field.exp : Field → Exp
  | .mk _ e => e

/-- Append on embedded expression lists. -/
def ExpList.append : ExpList → ExpList → ExpList
  | .nil, ys => ys
  | .cons x xs, ys => .cons x (ExpList.append xs ys)

/-! ## Free variables on HIR (`impl FV for Exp` / `Stm`, cc.rs lines 88-210)

The Rust code folds `rpds::HashTrieSet` unions; we use `Finset Name`.  The
`Let` arm first builds the set `p` of bound names, then keeps the free
variables of the body that are not in `p`, then unions the free variables of
the initializers — so a binding's own name occurring in its initializer stays
free (parallel let).  `Assign` inserts its left-hand side. -/

/-- The set `p` of names bound by a `Let`'s initializer list. -/
def FieldList.boundNames : FieldList → Finset Name
  | .nil => ∅
  | .cons f fs => insert f.param.name (FieldList.boundNames fs)

mutual
def fvExp : Exp → Finset Name
  | .NewArray _ length => fvExp length
  | .ArrayLit _ exps => fvExpList exps
  | .ArrayLoad _ _ array index => fvExp array ∪ fvExp index
  | .ArrayLength array => fvExp array
  | .Lit _ => ∅
  | .Call _ _ args => fvExpList args
  | .Var name _ => {name}
  | .Binary _ e1 e2 => fvExp e1 ∪ fvExp e2
  | .Unary _ exp => fvExp exp
  | .Seq body exp => fvStm body ∪ fvExp exp
  | .Let inits body =>
      (fvExp body).filter (fun x => x ∉ inits.boundNames) ∪ fvFieldInits inits
  | .Lambda _ params body =>
      (fvExp body).filter (fun x => x ∉ params.names)
  | .Apply _ f args => fvExp f ∪ fvExpList args
  | .StructLit fields => fvFieldInits fields
  | .StructLoad _ base _ => fvExp base
  | .Box _ exp => fvExp exp
  | .Unbox _ exp => fvExp exp
  | .Cast _ exp => fvExp exp
def fvExpList : ExpList → Finset Name
  | .nil => ∅
  | .cons e es => fvExp e ∪ fvExpList es
def fvStm : Stm → Finset Name
  | .IfElse cond t f => fvExp cond ∪ (fvStm t ∪ fvStm f)
  | .IfThen cond t => fvExp cond ∪ fvStm t
  | .While cond body => fvExp cond ∪ fvStm body
  | .Return exp => fvExp exp
  | .Block body => fvStmList body
  | .Eval exp => fvExp exp
  | .Assign _ lhs rhs => insert lhs (fvExp rhs)
  | .ArrayAssign _ _ array index value => fvExp array ∪ (fvExp index ∪ fvExp value)
  | .StructAssign _ base _ value => fvExp base ∪ fvExp value
def fvStmList : StmList → Finset Name
  | .nil => ∅
  | .cons s ss => fvStm s ∪ fvStmList ss
def fvFieldInits : FieldList → Finset Name
  | .nil => ∅
  | .cons (.mk _ e) fs => fvExp e ∪ fvFieldInits fs
end

end hir

/-! ## The closure-converted dialect (`cc.rs`, `mod hircc`)

Identical to HIR except `Lambda` / `Apply` are replaced by `LambdaCC` /
`ApplyCC`.  Types, parameters, literals and operators are shared with `hir`. -/

namespace hircc

mutual
inductive Exp where
  | NewArray : hir.Ty → Exp → Exp
  | ArrayLit : hir.Ty → ExpList → Exp
  | ArrayLoad : Bool → hir.Ty → Exp → Exp → Exp
  | ArrayLength : Exp → Exp
  | Lit : hir.Lit → Exp
  | Call : hir.Ty → Name → ExpList → Exp
  | Var : Name → hir.Ty → Exp
  | Binary : hir.Bop → Exp → Exp → Exp
  | Unary : hir.Uop → Exp → Exp
  | Seq : Stm → Exp → Exp
  | Let : FieldList → Exp → Exp
  | LambdaCC : hir.Ty → hir.Param → hir.ParamList → Exp → Exp
  | ApplyCC : hir.Ty → Exp → ExpList → Exp
  | StructLit : FieldList → Exp
  | StructLoad : hir.Ty → Exp → Name → Exp
  | Box : hir.Ty → Exp → Exp
  | Unbox : hir.Ty → Exp → Exp
  | Cast : hir.Ty → Exp → Exp
inductive ExpList where
  | nil : ExpList
  | cons : Exp → ExpList → ExpList
inductive Stm where
  | IfElse : Exp → Stm → Stm → Stm
  | IfThen : Exp → Stm → Stm
  | While : Exp → Stm → Stm
  | Return : Exp → Stm
  | Block : StmList → Stm
  | Eval : Exp → Stm
  | Assign : hir.Ty → Name → Exp → Stm
  | ArrayAssign : Bool → hir.Ty → Exp → Exp → Exp → Stm
  | StructAssign : hir.Ty → Exp → Name → Exp → Stm
inductive StmList where
  | nil : StmList
  | cons : Stm → StmList → StmList
inductive Field where
  | mk : hir.Param → Exp → Field
inductive FieldList where
  | nil : FieldList
  | cons : Field → FieldList → FieldList
end
deriving instance DecidableEq for Exp, ExpList, Stm, StmList, Field, FieldList

/-- `Field.param` accessor. -/
def Field.param : Field → hir.Param
  | .mk p _ => p

/-- `Field.exp` accessor. -/
def Field.exp : Field → Exp
  | .mk _ e => e

/-- The names bound by a `Let`'s initializer list (the loop building `p`). -/
def FieldList.boundNames : FieldList → Finset Name
  | .nil => ∅
  | .cons f fs => insert f.param.name (FieldList.boundNames fs)

/-! ### Free variables on HIR/CC

The source defines `FV` only on the HIR trees.  Modelled from the spec: the
spec's free-variable equations (§4.B) applied to the HIR/CC dialect, with the
binder structure of `LambdaCC` taken from §4.C ("when entering `LambdaCC`,
remove the env param and every parameter"); all arms shared with HIR follow
the source `FV` impl verbatim. -/

mutual
def fvExp : Exp → Finset Name
  | .NewArray _ length => fvExp length
  | .ArrayLit _ exps => fvExpList exps
  | .ArrayLoad _ _ array index => fvExp array ∪ fvExp index
  | .ArrayLength array => fvExp array
  | .Lit _ => ∅
  | .Call _ _ args => fvExpList args
  | .Var name _ => {name}
  | .Binary _ e1 e2 => fvExp e1 ∪ fvExp e2
  | .Unary _ exp => fvExp exp
  | .Seq body exp => fvStm body ∪ fvExp exp
  | .Let inits body =>
      (fvExp body).filter (fun x => x ∉ inits.boundNames) ∪ fvFieldInits inits
  | .LambdaCC _ env_param params body =>
      (fvExp body).filter (fun x => x ∉ insert env_param.name params.names)
  | .ApplyCC _ f args => fvExp f ∪ fvExpList args
  | .StructLit fields => fvFieldInits fields
  | .StructLoad _ base _ => fvExp base
  | .Box _ exp => fvExp exp
  | .Unbox _ exp => fvExp exp
  | .Cast _ exp => fvExp exp
def fvExpList : ExpList → Finset Name
  | .nil => ∅
  | .cons e es => fvExp e ∪ fvExpList es
def fvStm : Stm → Finset Name
  | .IfElse cond t f => fvExp cond ∪ (fvStm t ∪ fvStm f)
  | .IfThen cond t => fvExp cond ∪ fvStm t
  | .While cond body => fvExp cond ∪ fvStm body
  | .Return exp => fvExp exp
  | .Block body => fvStmList body
  | .Eval exp => fvExp exp
  | .Assign _ lhs rhs => insert lhs (fvExp rhs)
  | .ArrayAssign _ _ array index value => fvExp array ∪ (fvExp index ∪ fvExp value)
  | .StructAssign _ base _ value => fvExp base ∪ fvExp value
def fvStmList : StmList → Finset Name
  | .nil => ∅
  | .cons s ss => fvStm s ∪ fvStmList ss
def fvFieldInits : FieldList → Finset Name
  | .nil => ∅
  | .cons (.mk _ e) fs => fvExp e ∪ fvFieldInits fs
end

end hircc

/-! ## Substitution (`type Subst = HashMap<Name, hircc::Exp>`,
`impl Substitute for hircc::Exp / Stm / Field`, cc.rs lines 212-348)

A `HashMap` is embedded as a partial function; `HashMap::remove` is pointwise
update to `none`. -/

/-- Substitutions: partial maps from names to HIR/CC expressions. -/
def Subst : Type := Name → Option hircc.Exp

/-- `HashMap::remove` on a substitution. -/
def Subst.remove (s : Subst) (n : Name) : Subst :=
  fun y => if y = n then none else s y

/-- The loop `for f in inits { s2.remove(&f.param.name); }`. -/
def Subst.removeFields : Subst → hircc.FieldList → Subst
  | s, .nil => s
  | s, .cons f fs => Subst.removeFields (s.remove f.param.name) fs

/-- The loop `for param in params { s2.remove(&param.name); }`. -/
def Subst.removeParams : Subst → hir.ParamList → Subst
  | s, .nil => s
  | s, .cons p ps => Subst.removeParams (s.remove p.name) ps

namespace hircc

mutual
def substExp : Exp → Subst → Exp
  | .NewArray ty length, s => .NewArray ty (substExp length s)
  | .ArrayLit ty exps, s => .ArrayLit ty (substExpList exps s)
  | .ArrayLoad bc ty array index, s => .ArrayLoad bc ty (substExp array s) (substExp index s)
  | .ArrayLength array, s => .ArrayLength (substExp array s)
  | .Lit lit, _ => .Lit lit
  | .Call fun_type name args, s => .Call fun_type name (substExpList args s)
  | .Var name ty, s =>
      match s name with
      | some e => e
      | none => .Var name ty
  | .Binary op e1 e2, s => .Binary op (substExp e1 s) (substExp e2 s)
  | .Unary op exp, s => .Unary op (substExp exp s)
  | .Seq body exp, s => .Seq (substStm body s) (substExp exp s)
  | .Let inits body, s =>
      .Let (substFieldList inits s) (substExp body (s.removeFields inits))
  | .LambdaCC ret_type env_param params body, s =>
      .LambdaCC ret_type env_param params
        (substExp body (Subst.removeParams (s.remove env_param.name) params))
  | .ApplyCC fun_type f args, s => .ApplyCC fun_type (substExp f s) (substExpList args s)
  | .StructLit fields, s => .StructLit (substFieldList fields s)
  | .StructLoad ty base field, s => .StructLoad ty (substExp base s) field
  | .Box ty exp, s => .Box ty (substExp exp s)
  | .Unbox ty exp, s => .Unbox ty (substExp exp s)
  | .Cast ty exp, s => .Cast ty (substExp exp s)
def substExpList : ExpList → Subst → ExpList
  | .nil, _ => .nil
  | .cons e es, s => .cons (substExp e s) (substExpList es s)
def substStm : Stm → Subst → Stm
  | .IfElse cond t f, s => .IfElse (substExp cond s) (substStm t s) (substStm f s)
  | .IfThen cond t, s => .IfThen (substExp cond s) (substStm t s)
  | .While cond body, s => .While (substExp cond s) (substStm body s)
  | .Return exp, s => .Return (substExp exp s)
  | .Block body, s => .Block (substStmList body s)
  | .Eval exp, s => .Eval (substExp exp s)
  | .Assign ty lhs rhs, s => .Assign ty lhs (substExp rhs s)
  | .ArrayAssign bc ty array index value, s =>
      .ArrayAssign bc ty (substExp array s) (substExp index s) (substExp value s)
  | .StructAssign ty base field value, s =>
      .StructAssign ty (substExp base s) field (substExp value s)
def substStmList : StmList → Subst → StmList
  | .nil, _ => .nil
  | .cons s1 ss, s => .cons (substStm s1 s) (substStmList ss s)
def substFieldList : FieldList → Subst → FieldList
  | .nil, _ => .nil
  | .cons (.mk p e) fs, s => .cons (.mk p (substExp e s)) (substFieldList fs s)
end

end hircc

/-- The free variables of `σ x` (empty when `x` is unmapped); `biUnion` with
this over `fv e` is exactly the union of `fv(σ x)` over `x ∈ fv e ∩ dom σ`. -/
def Subst.optFv (s : Subst) (x : Name) : Finset Name :=
  match s x with
  | some v => hircc.fvExp v
  | none => ∅

namespace hircc

/-! ### Free assignment targets

Auxiliary analysis (not in the source): the names that occur free in an
expression as the left-hand side of an `Assign` statement.  `subst` leaves
`Assign` left-hand sides untouched while `fv` counts them, so these names
measure the gap between the two. -/

mutual
def atExp : Exp → Finset Name
  | .NewArray _ length => atExp length
  | .ArrayLit _ exps => atExpList exps
  | .ArrayLoad _ _ array index => atExp array ∪ atExp index
  | .ArrayLength array => atExp array
  | .Lit _ => ∅
  | .Call _ _ args => atExpList args
  | .Var _ _ => ∅
  | .Binary _ e1 e2 => atExp e1 ∪ atExp e2
  | .Unary _ exp => atExp exp
  | .Seq body exp => atStm body ∪ atExp exp
  | .Let inits body =>
      (atExp body).filter (fun x => x ∉ inits.boundNames) ∪ atFieldInits inits
  | .LambdaCC _ env_param params body =>
      (atExp body).filter (fun x => x ∉ insert env_param.name params.names)
  | .ApplyCC _ f args => atExp f ∪ atExpList args
  | .StructLit fields => atFieldInits fields
  | .StructLoad _ base _ => atExp base
  | .Box _ exp => atExp exp
  | .Unbox _ exp => atExp exp
  | .Cast _ exp => atExp exp
def atExpList : ExpList → Finset Name
  | .nil => ∅
  | .cons e es => atExp e ∪ atExpList es
def atStm : Stm → Finset Name
  | .IfElse cond t f => atExp cond ∪ (atStm t ∪ atStm f)
  | .IfThen cond t => atExp cond ∪ atStm t
  | .While cond body => atExp cond ∪ atStm body
  | .Return exp => atExp exp
  | .Block body => atStmList body
  | .Eval exp => atExp exp
  | .Assign _ lhs rhs => insert lhs (atExp rhs)
  | .ArrayAssign _ _ array index value => atExp array ∪ (atExp index ∪ atExp value)
  | .StructAssign _ base _ value => atExp base ∪ atExp value
def atStmList : StmList → Finset Name
  | .nil => ∅
  | .cons s ss => atStm s ∪ atStmList ss
def atFieldInits : FieldList → Finset Name
  | .nil => ∅
  | .cons (.mk _ e) fs => atExp e ∪ atFieldInits fs
end

end hircc

/-! ## Closure conversion (`impl CC<hircc::Exp> for Exp` etc., cc.rs 350-548)

`Name::fresh` forces an explicit counter; `convert` threads it left to right
(only the `Lambda` arm draws from it).  The iteration order over the
captured-variable set `vars` is the implementation's fixed deterministic
order; we determinize it as the sorted order of the `Finset`. -/

/-- A kernel-computable canonical enumeration of a finite set of names, in
ascending order: the determinization of the fixed-but-arbitrary iteration
order of the `HashTrieSet` of captured variables. -/
def sortedNames (s : Finset Name) : List Name :=
  Quotient.liftOn s.1 (List.insertionSort (fun a b => a ≤ b))
    (fun l1 l2 h =>
      List.eq_of_perm_of_sorted
        (((List.perm_insertionSort _ l1).trans h).trans
          (List.perm_insertionSort _ l2).symm)
        (List.sorted_insertionSort _ l1) (List.sorted_insertionSort _ l2))

/-- The loop building `env_params`: one `Box`-typed parameter per captured
variable, in iteration order. -/
def ccEnvParams : List Name → hir.ParamList
  | [] => .nil
  | x :: xs => .cons (.mk .Box x) (ccEnvParams xs)

/-- The loop building `env_fields`: each captured variable `x` is initialized
with `Var{x, Box}`, in iteration order. -/
def ccEnvFields : List Name → hircc.FieldList
  | [] => .nil
  | x :: xs => .cons (.mk (.mk .Box x) (.Var x .Box)) (ccEnvFields xs)

mutual
def convertExp : hir.Exp → ℕ → hircc.Exp × ℕ
  | .NewArray ty length, c =>
      (.NewArray ty (convertExp length c).1, (convertExp length c).2)
  | .ArrayLit ty exps, c =>
      (.ArrayLit ty (convertExpList exps c).1, (convertExpList exps c).2)
  | .ArrayLoad bc ty array index, c =>
      (.ArrayLoad bc ty (convertExp array c).1
        (convertExp index (convertExp array c).2).1,
       (convertExp index (convertExp array c).2).2)
  | .ArrayLength array, c =>
      (.ArrayLength (convertExp array c).1, (convertExp array c).2)
  | .Lit lit, c => (.Lit lit, c)
  | .Call fun_type name args, c =>
      (.Call fun_type name (convertExpList args c).1, (convertExpList args c).2)
  | .Var name ty, c => (.Var name ty, c)
  | .Binary op e1 e2, c =>
      (.Binary op (convertExp e1 c).1 (convertExp e2 (convertExp e1 c).2).1,
       (convertExp e2 (convertExp e1 c).2).2)
  | .Unary op exp, c => (.Unary op (convertExp exp c).1, (convertExp exp c).2)
  | .Seq body exp, c =>
      (.Seq (convertStm body c).1 (convertExp exp (convertStm body c).2).1,
       (convertExp exp (convertStm body c).2).2)
  | .Let inits body, c =>
      (.Let (convertFieldList inits c).1
        (convertExp body (convertFieldList inits c).2).1,
       (convertExp body (convertFieldList inits c).2).2)
  | .Lambda ret_type params body, c =>
      -- `let env = Name::fresh("env")`
      let env : Name := c
      -- `let vars = self.fv()` (iterated in the fixed deterministic order)
      let vars : Finset Name := hir.fvExp (.Lambda ret_type params body)
      let vs : List Name := sortedNames vars
      let internal_env_type : hir.Ty := .Struct (ccEnvParams vs)
      let external_env_type : hir.Ty := .Struct .nil
      let fun_type : hir.Ty :=
        .Fun ret_type (params.types.append (.cons external_env_type .nil))
      -- the substitution mapping each captured `x` to `env.x`
      let s : Subst := fun x =>
        if x ∈ vars then
          some (.StructLoad internal_env_type (.Var env internal_env_type) x)
        else none
      let cc_body : hircc.Exp := hircc.substExp (convertExp body (c + 1)).1 s
      (.StructLit
        (.cons (.mk (.mk fun_type funName)
          (.LambdaCC ret_type (.mk internal_env_type env) params cc_body))
        (.cons (.mk (.mk external_env_type envName)
          (.Cast external_env_type (.StructLit (ccEnvFields vs))))
        .nil)),
       (convertExp body (c + 1)).2)
  | .Apply fun_type f args, c =>
      (.ApplyCC fun_type (convertExp f c).1
        (convertExpList args (convertExp f c).2).1,
       (convertExpList args (convertExp f c).2).2)
  | .StructLit fields, c =>
      (.StructLit (convertFieldList fields c).1, (convertFieldList fields c).2)
  | .StructLoad ty base field, c =>
      (.StructLoad ty (convertExp base c).1 field, (convertExp base c).2)
  | .Box ty exp, c => (.Box ty (convertExp exp c).1, (convertExp exp c).2)
  | .Unbox ty exp, c => (.Unbox ty (convertExp exp c).1, (convertExp exp c).2)
  | .Cast ty exp, c => (.Cast ty (convertExp exp c).1, (convertExp exp c).2)
def convertExpList : hir.ExpList → ℕ → hircc.ExpList × ℕ
  | .nil, c => (.nil, c)
  | .cons e es, c =>
      (.cons (convertExp e c).1 (convertExpList es (convertExp e c).2).1,
       (convertExpList es (convertExp e c).2).2)
def convertStm : hir.Stm → ℕ → hircc.Stm × ℕ
  | .IfElse cond t f, c =>
      (.IfElse (convertExp cond c).1 (convertStm t (convertExp cond c).2).1
        (convertStm f (convertStm t (convertExp cond c).2).2).1,
       (convertStm f (convertStm t (convertExp cond c).2).2).2)
  | .IfThen cond t, c =>
      (.IfThen (convertExp cond c).1 (convertStm t (convertExp cond c).2).1,
       (convertStm t (convertExp cond c).2).2)
  | .While cond body, c =>
      (.While (convertExp cond c).1 (convertStm body (convertExp cond c).2).1,
       (convertStm body (convertExp cond c).2).2)
  | .Return exp, c => (.Return (convertExp exp c).1, (convertExp exp c).2)
  | .Block body, c => (.Block (convertStmList body c).1, (convertStmList body c).2)
  | .Eval exp, c => (.Eval (convertExp exp c).1, (convertExp exp c).2)
  | .Assign ty lhs rhs, c =>
      (.Assign ty lhs (convertExp rhs c).1, (convertExp rhs c).2)
  | .ArrayAssign bc ty array index value, c =>
      (.ArrayAssign bc ty (convertExp array c).1
        (convertExp index (convertExp array c).2).1
        (convertExp value (convertExp index (convertExp array c).2).2).1,
       (convertExp value (convertExp index (convertExp array c).2).2).2)
  | .StructAssign ty base field value, c =>
      (.StructAssign ty (convertExp base c).1 field
        (convertExp value (convertExp base c).2).1,
       (convertExp value (convertExp base c).2).2)
def convertStmList : hir.StmList → ℕ → hircc.StmList × ℕ
  | .nil, c => (.nil, c)
  | .cons s ss, c =>
      (.cons (convertStm s c).1 (convertStmList ss (convertStm s c).2).1,
       (convertStmList ss (convertStm s c).2).2)
def convertFieldList : hir.FieldList → ℕ → hircc.FieldList × ℕ
  | .nil, c => (.nil, c)
  | .cons (.mk p e) fs, c =>
      (.cons (.mk p (convertExp e c).1) (convertFieldList fs (convertExp e c).2).1,
       (convertFieldList fs (convertExp e c).2).2)
end

/-! ## Top-level definitions (`hir::trees::Root` / `Def`)

`cc.rs`'s `LL<Def>` impl matches `ExternDef { ret_type, name, params }`
(the shape below); `trees.rs` declares a two-field variant, a version skew in
the sources — the pass under verification is the authority here. -/

namespace hir

inductive Def where
  | VarDef : Ty → Name → Exp → Def
  | FunDef : Ty → Name → ParamList → Exp → Def
  | ExternDef : Ty → Name → ParamList → Def
deriving DecidableEq

/-- A whole program (`Root { defs }`). -/
structure Root where
  defs : List Def
deriving DecidableEq

/-! ### The `no_lambda` post-condition -/

mutual
def noLambdaExp : Exp → Bool
  | .NewArray _ length => noLambdaExp length
  | .ArrayLit _ exps => noLambdaExpList exps
  | .ArrayLoad _ _ array index => noLambdaExp array && noLambdaExp index
  | .ArrayLength array => noLambdaExp array
  | .Lit _ => true
  | .Call _ _ args => noLambdaExpList args
  | .Var _ _ => true
  | .Binary _ e1 e2 => noLambdaExp e1 && noLambdaExp e2
  | .Unary _ exp => noLambdaExp exp
  | .Seq body exp => noLambdaStm body && noLambdaExp exp
  | .Let inits body => noLambdaFieldList inits && noLambdaExp body
  | .Lambda _ _ _ => false
  | .Apply _ f args => noLambdaExp f && noLambdaExpList args
  | .StructLit fields => noLambdaFieldList fields
  | .StructLoad _ base _ => noLambdaExp base
  | .Box _ exp => noLambdaExp exp
  | .Unbox _ exp => noLambdaExp exp
  | .Cast _ exp => noLambdaExp exp
def noLambdaExpList : ExpList → Bool
  | .nil => true
  | .cons e es => noLambdaExp e && noLambdaExpList es
def noLambdaStm : Stm → Bool
  | .IfElse cond t f => noLambdaExp cond && (noLambdaStm t && noLambdaStm f)
  | .IfThen cond t => noLambdaExp cond && noLambdaStm t
  | .While cond body => noLambdaExp cond && noLambdaStm body
  | .Return exp => noLambdaExp exp
  | .Block body => noLambdaStmList body
  | .Eval exp => noLambdaExp exp
  | .Assign _ _ rhs => noLambdaExp rhs
  | .ArrayAssign _ _ array index value =>
      noLambdaExp array && (noLambdaExp index && noLambdaExp value)
  | .StructAssign _ base _ value => noLambdaExp base && noLambdaExp value
def noLambdaStmList : StmList → Bool
  | .nil => true
  | .cons s ss => noLambdaStm s && noLambdaStmList ss
def noLambdaFieldList : FieldList → Bool
  | .nil => true
  | .cons (.mk _ e) fs => noLambdaExp e && noLambdaFieldList fs
end

/-- No `Lambda` under a top-level definition. -/
def noLambdaDef : Def → Bool
  | .VarDef _ _ exp => noLambdaExp exp
  | .FunDef _ _ _ body => noLambdaExp body
  | .ExternDef _ _ _ => true

/-- No `Lambda` in a list of definitions. -/
def noLambdaDefs : List Def → Bool
  | [] => true
  | d :: ds => noLambdaDef d && noLambdaDefs ds

/-- No `Lambda` anywhere in a whole program. -/
def noLambdaRoot (r : Root) : Bool :=
  noLambdaDefs r.defs

end hir

/-! ## Lambda lifting (`trait LL`, `struct Lift`, cc.rs 550-785)

`lift` threads the fresh-name counter together with the accumulating
`decls` vector; `Vec::push` appends at the end.  The `panic!` on an
`ApplyCC` whose `fun_type` is not a function type makes `lift` fallible, so
it returns `Option`. -/

/-- The mutable state of lambda lifting: the global fresh-name counter and
the accumulated top-level declarations. -/
structure LiftSt where
  ctr : ℕ
  decls : List hir.Def
deriving DecidableEq

mutual
def liftExp : hircc.Exp → LiftSt → Option (hir.Exp × LiftSt)
  | .NewArray ty length, st =>
      match liftExp length st with
      | none => none
      | some (e2, st2) => some (.NewArray ty e2, st2)
  | .ArrayLit ty exps, st =>
      match liftExpList exps st with
      | none => none
      | some (es2, st2) => some (.ArrayLit ty es2, st2)
  | .ArrayLoad bc ty array index, st =>
      match liftExp array st with
      | none => none
      | some (a2, st2) =>
        match liftExp index st2 with
        | none => none
        | some (i2, st3) => some (.ArrayLoad bc ty a2 i2, st3)
  | .ArrayLength array, st =>
      match liftExp array st with
      | none => none
      | some (a2, st2) => some (.ArrayLength a2, st2)
  | .Lit lit, st => some (.Lit lit, st)
  | .Call fun_type name args, st =>
      match liftExpList args st with
      | none => none
      | some (as2, st2) => some (.Call fun_type name as2, st2)
  | .Var name ty, st => some (.Var name ty, st)
  | .Binary op e1 e2, st =>
      match liftExp e1 st with
      | none => none
      | some (a2, st2) =>
        match liftExp e2 st2 with
        | none => none
        | some (b2, st3) => some (.Binary op a2 b2, st3)
  | .Unary op exp, st =>
      match liftExp exp st with
      | none => none
      | some (e2, st2) => some (.Unary op e2, st2)
  | .Seq body exp, st =>
      match liftStm body st with
      | none => none
      | some (s2, st2) =>
        match liftExp exp st2 with
        | none => none
        | some (e2, st3) => some (.Seq s2 e2, st3)
  | .Let inits body, st =>
      match liftFieldList inits st with
      | none => none
      | some (is2, st2) =>
        match liftExp body st2 with
        | none => none
        | some (b2, st3) => some (.Let is2 b2, st3)
  | .LambdaCC ret_type env_param params body, st =>
      -- `let f = Name::fresh("lifted"); let env_param_name = Name::fresh("env")`
      let f : Name := st.ctr
      let env_param_name : Name := st.ctr + 1
      let external_env_type : hir.Ty := .Struct .nil
      let def_params : hir.ParamList :=
        params.append (.cons (.mk external_env_type env_param_name) .nil)
      let fun_type : hir.Ty :=
        .Fun ret_type (params.types.append (.cons external_env_type .nil))
      match liftExp body ⟨st.ctr + 2, st.decls⟩ with
      | none => none
      | some (lifted_body, st2) =>
        let cast : hir.Exp := .Cast env_param.ty (.Var env_param_name external_env_type)
        let exp : hir.Exp := .Let (.cons (.mk env_param cast) .nil) lifted_body
        some (.Var f fun_type,
          ⟨st2.ctr, st2.decls ++ [.FunDef ret_type f def_params exp]⟩)
  | .ApplyCC fun_type f args, st =>
      -- the caller sees the environment as an empty struct
      let env_type : hir.Ty := .Struct .nil
      let closure : Name := st.ctr
      match liftExpList args ⟨st.ctr + 1, st.decls⟩ with
      | none => none
      | some (cargs, st2) =>
        let closure_type : hir.Ty :=
          .Struct (.cons (.mk fun_type funName) (.cons (.mk env_type envName) .nil))
        let closure_args : hir.ExpList :=
          cargs.append
            (.cons (.StructLoad closure_type (.Var closure closure_type) envName) .nil)
        match fun_type with
        | .Fun ret fargs =>
          match liftExp f st2 with
          | none => none
          | some (f2, st3) =>
            some (.Let (.cons (.mk (.mk closure_type closure) f2) .nil)
                (.Apply (.Fun ret (fargs.append (.cons env_type .nil)))
                  (.StructLoad closure_type (.Var closure closure_type) funName)
                  closure_args),
              st3)
        | _ => none  -- `panic!("ApplyCC type should be a function type")`
  | .StructLit fields, st =>
      match liftFieldList fields st with
      | none => none
      | some (fs2, st2) => some (.StructLit fs2, st2)
  | .StructLoad ty base field, st =>
      match liftExp base st with
      | none => none
      | some (b2, st2) => some (.StructLoad ty b2 field, st2)
  | .Box ty exp, st =>
      match liftExp exp st with
      | none => none
      | some (e2, st2) => some (.Box ty e2, st2)
  | .Unbox ty exp, st =>
      match liftExp exp st with
      | none => none
      | some (e2, st2) => some (.Unbox ty e2, st2)
  | .Cast ty exp, st =>
      match liftExp exp st with
      | none => none
      | some (e2, st2) => some (.Cast ty e2, st2)
def liftExpList : hircc.ExpList → LiftSt → Option (hir.ExpList × LiftSt)
  | .nil, st => some (.nil, st)
  | .cons e es, st =>
      match liftExp e st with
      | none => none
      | some (e2, st2) =>
        match liftExpList es st2 with
        | none => none
        | some (es2, st3) => some (.cons e2 es2, st3)
def liftStm : hircc.Stm → LiftSt → Option (hir.Stm × LiftSt)
  | .IfElse cond t f, st =>
      match liftExp cond st with
      | none => none
      | some (c2, st2) =>
        match liftStm t st2 with
        | none => none
        | some (t2, st3) =>
          match liftStm f st3 with
          | none => none
          | some (f2, st4) => some (.IfElse c2 t2 f2, st4)
  | .IfThen cond t, st =>
      match liftExp cond st with
      | none => none
      | some (c2, st2) =>
        match liftStm t st2 with
        | none => none
        | some (t2, st3) => some (.IfThen c2 t2, st3)
  | .While cond body, st =>
      match liftExp cond st with
      | none => none
      | some (c2, st2) =>
        match liftStm body st2 with
        | none => none
        | some (b2, st3) => some (.While c2 b2, st3)
  | .Return exp, st =>
      match liftExp exp st with
      | none => none
      | some (e2, st2) => some (.Return e2, st2)
  | .Block body, st =>
      match liftStmList body st with
      | none => none
      | some (b2, st2) => some (.Block b2, st2)
  | .Eval exp, st =>
      match liftExp exp st with
      | none => none
      | some (e2, st2) => some (.Eval e2, st2)
  | .Assign ty lhs rhs, st =>
      match liftExp rhs st with
      | none => none
      | some (r2, st2) => some (.Assign ty lhs r2, st2)
  | .ArrayAssign bc ty array index value, st =>
      match liftExp array st with
      | none => none
      | some (a2, st2) =>
        match liftExp index st2 with
        | none => none
        | some (i2, st3) =>
          match liftExp value st3 with
          | none => none
          | some (v2, st4) => some (.ArrayAssign bc ty a2 i2 v2, st4)
  | .StructAssign ty base field value, st =>
      match liftExp base st with
      | none => none
      | some (b2, st2) =>
        match liftExp value st2 with
        | none => none
        | some (v2, st3) => some (.StructAssign ty b2 field v2, st3)
def liftStmList : hircc.StmList → LiftSt → Option (hir.StmList × LiftSt)
  | .nil, st => some (.nil, st)
  | .cons s ss, st =>
      match liftStm s st with
      | none => none
      | some (s2, st2) =>
        match liftStmList ss st2 with
        | none => none
        | some (ss2, st3) => some (.cons s2 ss2, st3)
def liftFieldList : hircc.FieldList → LiftSt → Option (hir.FieldList × LiftSt)
  | .nil, st => some (.nil, st)
  | .cons (.mk p e) fs, st =>
      match liftExp e st with
      | none => none
      | some (e2, st2) =>
        match liftFieldList fs st2 with
        | none => none
        | some (fs2, st3) => some (.cons (.mk p e2) fs2, st3)
end

/-- `impl LL<Def> for Def`: convert the body, then lift it. -/
def liftDef : hir.Def → LiftSt → Option (hir.Def × LiftSt)
  | .VarDef ty name exp, st =>
      match liftExp (convertExp exp st.ctr).1 ⟨(convertExp exp st.ctr).2, st.decls⟩ with
      | none => none
      | some (e2, st2) => some (.VarDef ty name e2, st2)
  | .FunDef ret_type name params body, st =>
      match liftExp (convertExp body st.ctr).1 ⟨(convertExp body st.ctr).2, st.decls⟩ with
      | none => none
      | some (b2, st2) => some (.FunDef ret_type name params b2, st2)
  | .ExternDef ret_type name params, st =>
      some (.ExternDef ret_type name params, st)

/-- The loop over `root.defs` in `Lift::lift`. -/
def liftDefs : List hir.Def → LiftSt → Option (List hir.Def × LiftSt)
  | [], st => some ([], st)
  | d :: ds, st =>
      match liftDef d st with
      | none => none
      | some (d2, st2) =>
        match liftDefs ds st2 with
        | none => none
        | some (ds2, st3) => some (d2 :: ds2, st3)

/-- `Lift::lift`: lift every definition, then append the accumulated
declarations (`defs.append(&mut decls)`).  `c` is the incoming value of the
global fresh-name counter. -/
def liftRoot (root : hir.Root) (c : ℕ) : Option hir.Root :=
  match liftDefs root.defs ⟨c, []⟩ with
  | none => none
  | some (defs, st) => some ⟨defs ++ st.decls⟩

/-! ## LIR (`lir::trees`, `mir::ops`)

Modelled from the spec: the `lir` / `mir` tree and operator modules are not
among the provided sources (only `llvm_gen.rs` uses them); the statement and
expression forms follow §3.5 of the spec and the arms matched by
`llvm_gen.rs`, the types follow §3.2.  The operator taxonomy of §3.6 is
large and entirely opaque to every claim, so a representative operator is
kept per emission style (plain native instruction, comparison, intrinsic
call, stubbed/unimplemented). -/

namespace lir

mutual
inductive Ty where
  | I1 : Ty
  | I32 : Ty
  | I64 : Ty
  | F32 : Ty
  | F64 : Ty
  | Word : Ty
  | Void : Ty
  | Ptr : Ty → Ty
  | Array : Ty → Ty
  | Struct : TyList → Ty
  | Fun : Ty → TyList → Ty
inductive TyList where
  | nil : TyList
  | cons : Ty → TyList → TyList
end
deriving instance DecidableEq for Ty, TyList

/-- `mir::Lit`, the literal forms matched by `to_value`.  Float payloads are
opaque bit patterns. -/
inductive Lit where
  | I1 : Bool → Lit
  | I32 : Int → Lit
  | I64 : Int → Lit
  | F32 : ℕ → Lit
  | F64 : ℕ → Lit
  | Sizeof : Ty → Lit
  | ArrayBaseOffset : Lit
  | ArrayLengthOffset : Lit
  | StructFieldOffset : Ty → ℕ → Lit
deriving DecidableEq

/-- LIR expressions are pure and trivial. -/
inductive Exp where
  | Global : Name → Ty → Exp
  | Function : Name → Ty → Exp
  | Temp : Name → Ty → Exp
  | Lit : Lit → Exp
deriving DecidableEq

/-- Representative binary operators (see the section comment). -/
inductive Bop where
  | Add_i32 : Bop      -- plain instruction: `add`
  | Add_f64 : Bop      -- plain instruction: `fadd`
  | Eq_i32 : Bop       -- comparison: `icmp EQ`
  | Rotl_i32 : Bop     -- intrinsic call: `llvm.fshl.i32` with (a, a, b)
  | Atan2_f32 : Bop    -- `unimplemented!()`
deriving DecidableEq

/-- Representative unary operators (see the section comment). -/
inductive Uop where
  | Not_z : Uop         -- plain instruction: `not`
  | Sqrt_f64 : Uop      -- intrinsic call: `llvm.sqrt.f64`
  | Wrap_i64_i32 : Uop  -- conversion: `trunc` to i32
  | IsNan_f32 : Uop     -- `unimplemented!()`
deriving DecidableEq

/-- LIR statements (spec §3.5 and the arms of `translate_stm` /
`add_temps_for_stm`).  Field order: destination first, as in the source. -/
inductive Stm where
  | Label : Name → Stm
  | Nop : Stm
  | Jump : Name → Stm
  | CJump : Exp → Name → Name → Stm
  | Ret : Exp → Stm
  | Move : Exp → Exp → Stm
  | Load : Exp → Exp → Stm
  | Store : Exp → Exp → Stm
  | Call : Exp → Exp → List Exp → Stm
  | Binary : Exp → Bop → Exp → Exp → Stm
  | Unary : Exp → Uop → Exp → Stm
  | Cast : Exp → Ty → Exp → Stm
  | GetStructElementAddr : Exp → Ty → Exp → ℕ → Stm
  | GetArrayElementAddr : Exp → Ty → Exp → Exp → Stm
  | GetArrayLengthAddr : Exp → Exp → Stm
deriving DecidableEq

/-- An LIR procedure parameter. -/
structure Param where
  ty : Ty
  name : Name
deriving DecidableEq

/-- An LIR procedure. -/
structure Proc where
  ret_type : Ty
  name : Name
  params : List Param
  body : List Stm
deriving DecidableEq

end lir

/-! ## The LLVM facade (`crate::llvm`)

Modelled from the spec (§6, "SSA builder facade"): the wrapper library is not
among the provided sources.  Emission is recorded as a growing list of
`(basic-block, instruction)` pairs; every emitted instruction yields a fresh
SSA value id.  Instruction result names (`fresh_name`, `"t.llvm"`) are purely
cosmetic strings in the source and are not modelled. -/

namespace llvm

/-- `llvm::Type`. -/
inductive Ty where
  | i1 : Ty
  | i32 : Ty
  | i64 : Ty
  | float : Ty
  | double : Ty
  | void : Ty
  | pointer : Ty → Ty
  | array : Ty → ℕ → Ty
  | structT : List Ty → Ty
  | functionT : Ty → List Ty → Ty

/-- `llvm::IntPredicate` (only the predicate used by the representative
comparison operator is kept). -/
inductive IntPredicate where
  | EQ : IntPredicate
deriving DecidableEq

/-- `llvm::Value`: constants, function parameters, SSA results, symbol
addresses. -/
inductive Value where
  | i1 : Bool → Value
  | i32 : Int → Value
  | i64 : Int → Value
  | float : ℕ → Value
  | double : ℕ → Value
  | param : ℕ → Value
  | instr : ℕ → Value
  | globalAddr : Name → Value
  | funAddr : Name → Value

/-- The native-SSA instructions the embedded emitter can produce. -/
inductive Instr where
  | alloca : Ty → Instr
  | load : Value → Instr
  | store : Value → Value → Instr
  | br : ℕ → Instr
  | condBr : Value → ℕ → ℕ → Instr
  | ret : Value → Instr
  | unreachableI : Instr
  | call : Value → List Value → Instr
  | add : Value → Value → Instr
  | fadd : Value → Value → Instr
  | icmp : IntPredicate → Value → Value → Instr
  | not : Value → Instr
  | trunc : Value → Ty → Instr
  | bitcast : Value → Ty → Instr

/-- The builder/module state: fresh value ids, fresh basic-block ids, the
current insertion block, the emission stream, and the `labels` map of
`BodyTranslator`. -/
structure Builder where
  nextVal : ℕ
  nextBB : ℕ
  curBB : ℕ
  emitted : List (ℕ × Instr)
  labels : List (Name × ℕ)

/-- The initial builder state. -/
def Builder.init : Builder := ⟨0, 0, 0, [], []⟩

/-- `context.append_bb`. -/
def appendBB (b : Builder) : ℕ × Builder :=
  (b.nextBB, ⟨b.nextVal, b.nextBB + 1, b.curBB, b.emitted, b.labels⟩)

/-- `builder.position_at_end`. -/
def positionAtEnd (bb : ℕ) (b : Builder) : Builder :=
  ⟨b.nextVal, b.nextBB, bb, b.emitted, b.labels⟩

/-- Emit one instruction at the current position; returns its SSA value. -/
def emit (i : Instr) (b : Builder) : Value × Builder :=
  (.instr b.nextVal,
   ⟨b.nextVal + 1, b.nextBB, b.curBB, b.emitted ++ [(b.curBB, i)], b.labels⟩)

end llvm

/-! ## The LIR → LLVM emitter (`gen::llvm_gen`) -/

/-- Assoc-list lookup mirroring `HashMap::get`; entries are prepended on
insert, so the first hit is the most recent insertion (= `HashMap`
overwrite semantics). -/
def lookupName {α : Type} (n : Name) : List (Name × α) → Option α
  | [] => none
  | (m, v) :: rest => if n = m then some v else lookupName n rest

/-- `WORDSIZE` (64-bit target). -/
def WORDSIZE : ℕ := 8

/-- The translation of `lir::Type::Word` (i64 on the 64-bit target). -/
def wordType : llvm.Ty := if WORDSIZE = 8 then .i64 else .i32

/-! `Translate::to_type`: LIR types to LLVM types.  An `Array{ty}` is laid
out as `Struct{ length: Word, body: Array(ty, 0) }`. -/

mutual
def toType : lir.Ty → llvm.Ty
  | .I1 => .i1
  | .I32 => .i32
  | .I64 => .i64
  | .F32 => .float
  | .F64 => .double
  | .Word => wordType
  | .Void => .void
  | .Ptr ty => .pointer (toType ty)
  | .Array ty => .structT [wordType, .array (toType ty) 0]
  | .Struct fields => .structT (toTypeList fields)
  | .Fun ret args => .functionT (toType ret) (toTypeList args)
def toTypeList : lir.TyList → List llvm.Ty
  | .nil => []
  | .cons t ts => toType t :: toTypeList ts
end

/-- Emission failures: `unimplemented!()` in the `Get*Addr` statement arms,
`unimplemented!()` in the operator dispatch, the `unreachable!()` in
`to_addr`'s `Temp` arm (slot-table miss), and the `unreachable!()` arms of
`translate_stm` for `Nop` / `Label`. -/
inductive EmitErr where
  | unimplementedStm : EmitErr
  | unimplementedOp : EmitErr
  | tempMiss : Name → EmitErr
  | unreachableStm : EmitErr
deriving DecidableEq

/-- The interned names of the representative intrinsics
(`Name::new("llvm.fshl.i32")`, `Name::new("llvm.sqrt.f64")`). -/
def fshl_i32_Name : Name := 2

/-- See `fshl_i32_Name`. -/
def sqrt_f64_Name : Name := 3

/-- The per-body translation context: the `params` and `temps` maps of
`BodyTranslator`. -/
structure Ctx where
  params : List (Name × llvm.Value)
  temps : List (Name × llvm.Value)

/-- The pure value of a literal (`to_value`'s `Lit` arms: constants of the
correct width; `Sizeof` / offsets become word-sized integers). -/
def litValue : lir.Lit → llvm.Value
  | .I1 value => .i1 value
  | .I32 value => .i32 value
  | .I64 value => .i64 value
  | .F32 value => .float value
  | .F64 value => .double value
  | .Sizeof _ => if WORDSIZE = 4 then .i32 (Int.ofNat WORDSIZE) else .i64 (Int.ofNat WORDSIZE)
  | .ArrayBaseOffset => if WORDSIZE = 4 then .i32 (Int.ofNat WORDSIZE) else .i64 (Int.ofNat WORDSIZE)
  | .ArrayLengthOffset => if WORDSIZE = 4 then .i32 0 else .i64 0
  | .StructFieldOffset _ field =>
      if WORDSIZE = 4 then .i32 (Int.ofNat (field * WORDSIZE))
      else .i64 (Int.ofNat (field * WORDSIZE))

/-- `BodyTranslator::to_addr`.  `Global` / `Function` resolve to module
symbol addresses; a `Temp` must be in the pre-filled slot table, otherwise
the `unreachable!()` is hit; a literal falls through to `to_value` (which
for literals is the pure constant). -/
def toAddr (ctx : Ctx) (e : lir.Exp) (b : llvm.Builder) :
    Except EmitErr (llvm.Value × llvm.Builder) :=
  match e with
  | .Global name _ => .ok (.globalAddr name, b)
  | .Function name _ => .ok (.funAddr name, b)
  | .Temp name _ =>
      match lookupName name ctx.temps with
      | some v => .ok (v, b)
      | none => .error (.tempMiss name)
  | .Lit lit => .ok (litValue lit, b)

/-- `BodyTranslator::to_value`.  `Global` / `Function` load from the symbol
address; a `Temp` that is a formal parameter is the incoming SSA value, any
other `Temp` loads from its slot; literals are constants. -/
def toValue (ctx : Ctx) (e : lir.Exp) (b : llvm.Builder) :
    Except EmitErr (llvm.Value × llvm.Builder) :=
  match e with
  | .Global _ _ =>
      match toAddr ctx e b with
      | .error er => .error er
      | .ok (a, b2) => .ok (llvm.emit (.load a) b2)
  | .Function _ _ =>
      match toAddr ctx e b with
      | .error er => .error er
      | .ok (a, b2) => .ok (llvm.emit (.load a) b2)
  | .Temp name _ =>
      match lookupName name ctx.params with
      | some v => .ok (v, b)
      | none =>
        match toAddr ctx e b with
        | .error er => .error er
        | .ok (a, b2) => .ok (llvm.emit (.load a) b2)
  | .Lit lit => .ok (litValue lit, b)

/-- `args.iter().map(|a| self.to_value(a))`. -/
def toValues (ctx : Ctx) : List lir.Exp → llvm.Builder →
    Except EmitErr (List llvm.Value × llvm.Builder)
  | [], b => .ok ([], b)
  | e :: es, b =>
      match toValue ctx e b with
      | .error er => .error er
      | .ok (v, b2) =>
        match toValues ctx es b2 with
        | .error er => .error er
        | .ok (vs, b3) => .ok (v :: vs, b3)

/-- `BodyTranslator::to_bb`: look up or create the block for a label. -/
def toBB (label : Name) (b : llvm.Builder) : ℕ × llvm.Builder :=
  match lookupName label b.labels with
  | some bb => (bb, b)
  | none =>
      let bb := (llvm.appendBB b).1
      let b2 := (llvm.appendBB b).2
      (bb, ⟨b2.nextVal, b2.nextBB, b2.curBB, b2.emitted, (label, bb) :: b2.labels⟩)

/-- The `intrinsic!` macro: a call to the named external function. -/
def intrinsicCall (name : Name) (args : List llvm.Value) (b : llvm.Builder) :
    llvm.Value × llvm.Builder :=
  llvm.emit (.call (.funAddr name) args) b

/-- `BodyTranslator::translate_stm` (effects in source order).  `Binary` /
`Unary` dispatch on the representative operator set; the three `Get*Addr`
arms and the stubbed operators are `unimplemented!()`; `Nop` / `Label` are
the `unreachable!()` arms (the loop in `translate` filters them out). -/
def translateStm (ctx : Ctx) (stm : lir.Stm) (b : llvm.Builder) :
    Except EmitErr llvm.Builder :=
  match stm with
  | .CJump cmp if_true if_false =>
      match toValue ctx cmp b with
      | .error er => .error er
      | .ok (i, b2) =>
        let t := (toBB if_true b2).1
        let b3 := (toBB if_true b2).2
        let e := (toBB if_false b3).1
        let b4 := (toBB if_false b3).2
        .ok (llvm.emit (.condBr i t e) b4).2
  | .Jump label =>
      let l := (toBB label b).1
      let b2 := (toBB label b).2
      .ok (llvm.emit (.br l) b2).2
  | .Ret exp =>
      match toValue ctx exp b with
      | .error er => .error er
      | .ok (v, b2) => .ok (llvm.emit (.ret v) b2).2
  | .Store dst_addr src =>
      match toValue ctx src b with
      | .error er => .error er
      | .ok (v, b2) =>
        match toAddr ctx dst_addr b2 with
        | .error er => .error er
        | .ok (p, b3) => .ok (llvm.emit (.store v p) b3).2
  | .Load dst src_addr =>
      match toAddr ctx src_addr b with
      | .error er => .error er
      | .ok (p, b2) =>
        let v := (llvm.emit (.load p) b2).1
        let b3 := (llvm.emit (.load p) b2).2
        match toAddr ctx dst b3 with
        | .error er => .error er
        | .ok (x, b4) => .ok (llvm.emit (.store v x) b4).2
  | .Move dst src =>
      match toAddr ctx dst b with
      | .error er => .error er
      | .ok (x, b2) =>
        match toValue ctx src b2 with
        | .error er => .error er
        | .ok (v, b3) => .ok (llvm.emit (.store v x) b3).2
  | .Call dst f args =>
      match toAddr ctx f b with
      | .error er => .error er
      | .ok (fv, b2) =>
        match toValues ctx args b2 with
        | .error er => .error er
        | .ok (vs, b3) =>
          let v := (llvm.emit (.call fv vs) b3).1
          let b4 := (llvm.emit (.call fv vs) b3).2
          match toAddr ctx dst b4 with
          | .error er => .error er
          | .ok (x, b5) => .ok (llvm.emit (.store v x) b5).2
  | .Binary dst op e1 e2 =>
      match toValue ctx e1 b with
      | .error er => .error er
      | .ok (a1, b2) =>
        match toValue ctx e2 b2 with
        | .error er => .error er
        | .ok (a2, b3) =>
          let emitted : Except EmitErr (llvm.Value × llvm.Builder) :=
            match op with
            | .Add_i32 => .ok (llvm.emit (.add a1 a2) b3)
            | .Add_f64 => .ok (llvm.emit (.fadd a1 a2) b3)
            | .Eq_i32 => .ok (llvm.emit (.icmp .EQ a1 a2) b3)
            | .Rotl_i32 => .ok (intrinsicCall fshl_i32_Name [a1, a1, a2] b3)
            | .Atan2_f32 => .error .unimplementedOp
          match emitted with
          | .error er => .error er
          | .ok (v, b4) =>
            match toAddr ctx dst b4 with
            | .error er => .error er
            | .ok (x, b5) => .ok (llvm.emit (.store v x) b5).2
  | .Unary dst op exp =>
      match toValue ctx exp b with
      | .error er => .error er
      | .ok (e, b2) =>
        let emitted : Except EmitErr (llvm.Value × llvm.Builder) :=
          match op with
          | .Not_z => .ok (llvm.emit (.not e) b2)
          | .Sqrt_f64 => .ok (intrinsicCall sqrt_f64_Name [e] b2)
          | .Wrap_i64_i32 => .ok (llvm.emit (.trunc e (toType .I32)) b2)
          | .IsNan_f32 => .error .unimplementedOp
        match emitted with
        | .error er => .error er
        | .ok (v, b3) =>
          match toAddr ctx dst b3 with
          | .error er => .error er
          | .ok (x, b4) => .ok (llvm.emit (.store v x) b4).2
  | .Cast dst ty exp =>
      let t := toType ty
      match toValue ctx exp b with
      | .error er => .error er
      | .ok (e, b2) =>
        let v := (llvm.emit (.bitcast e t) b2).1
        let b3 := (llvm.emit (.bitcast e t) b2).2
        match toAddr ctx dst b3 with
        | .error er => .error er
        | .ok (x, b4) => .ok (llvm.emit (.store v x) b4).2
  | .GetStructElementAddr _ _ _ _ => .error .unimplementedStm
  | .GetArrayElementAddr _ _ _ _ => .error .unimplementedStm
  | .GetArrayLengthAddr _ _ => .error .unimplementedStm
  | .Nop => .error .unreachableStm
  | .Label _ => .error .unreachableStm

/-! ### `TempFinder` (llvm_gen.rs 664-734)

The Rust collector inserts `(temp_name, type)` pairs into a `HashSet`; the
set is embedded as a duplicate-free list in first-insertion order (a
determinization of the hash iteration order). -/

/-- `TempFinder::add_temps_for_exp`. -/
def addTempsForExp (e : lir.Exp) (temps : List (Name × lir.Ty)) :
    List (Name × lir.Ty) :=
  match e with
  | .Temp name ty => if (name, ty) ∈ temps then temps else temps ++ [(name, ty)]
  | _ => temps

/-- `TempFinder::add_temps_for_stm`. -/
def addTempsForStm (s : lir.Stm) (temps : List (Name × lir.Ty)) :
    List (Name × lir.Ty) :=
  match s with
  | .Nop => temps
  | .CJump cmp _ _ => addTempsForExp cmp temps
  | .Jump _ => temps
  | .Ret exp => addTempsForExp exp temps
  | .Store dst_addr src => addTempsForExp src (addTempsForExp dst_addr temps)
  | .Load dst src_addr => addTempsForExp src_addr (addTempsForExp dst temps)
  | .Move dst src => addTempsForExp src (addTempsForExp dst temps)
  | .Call dst f args =>
      args.foldl (fun acc a => addTempsForExp a acc)
        (addTempsForExp f (addTempsForExp dst temps))
  | .Binary dst _ e1 e2 =>
      addTempsForExp e2 (addTempsForExp e1 (addTempsForExp dst temps))
  | .Unary dst _ exp => addTempsForExp exp (addTempsForExp dst temps)
  | .Cast dst _ exp => addTempsForExp exp (addTempsForExp dst temps)
  | .Label _ => temps
  | .GetStructElementAddr dst _ ptr _ => addTempsForExp ptr (addTempsForExp dst temps)
  | .GetArrayElementAddr dst _ ptr index =>
      addTempsForExp index (addTempsForExp ptr (addTempsForExp dst temps))
  | .GetArrayLengthAddr dst ptr => addTempsForExp ptr (addTempsForExp dst temps)

/-- The collection loop in `translate`: `for s in body { add_temps_for_stm }`. -/
def collectTemps (body : List lir.Stm) : List (Name × lir.Ty) :=
  body.foldl (fun acc s => addTempsForStm s acc) []

/-- The alloca loop in `translate`: one stack slot per collected temporary
that is not a formal parameter; later insertions shadow earlier ones in the
resulting map. -/
def allocaLoop (params : List (Name × llvm.Value)) :
    List (Name × lir.Ty) → llvm.Builder → List (Name × llvm.Value) × llvm.Builder
  | [], b => ([], b)
  | (x, xty) :: rest, b =>
      match lookupName x params with
      | some _ => allocaLoop params rest b
      | none =>
          let v := (llvm.emit (.alloca (toType xty)) b).1
          let b2 := (llvm.emit (.alloca (toType xty)) b).2
          let m := (allocaLoop params rest b2).1
          let b3 := (allocaLoop params rest b2).2
          (m ++ [(x, v)], b3)

/-- Is the statement one of the terminators tracked by `last_was_jump`? -/
def isTerminatorStm : lir.Stm → Bool
  | .Jump _ => true
  | .CJump _ _ _ => true
  | .Ret _ => true
  | _ => false

/-- The statement loop of `BodyTranslator::translate`: `Label` looks up or
creates the block, inserts a fall-through `br` iff `last_was_jump` is false,
and repositions the builder — without touching `last_was_jump`; `Nop` is
skipped; any other statement sets `last_was_jump` from its own shape and is
translated. -/
def stmLoop (ctx : Ctx) : List lir.Stm → Bool → llvm.Builder →
    Except EmitErr (Bool × llvm.Builder)
  | [], lwj, b => .ok (lwj, b)
  | .Label label :: rest, lwj, b =>
      let bb := (toBB label b).1
      let b2 := (toBB label b).2
      let b3 := if lwj then b2 else (llvm.emit (.br bb) b2).2
      stmLoop ctx rest lwj (llvm.positionAtEnd bb b3)
  | .Nop :: rest, lwj, b => stmLoop ctx rest lwj b
  | s :: rest, _, b =>
      match translateStm ctx s b with
      | .error er => .error er
      | .ok b2 => stmLoop ctx rest (isTerminatorStm s) b2

/-- `BodyTranslator::translate`: entry block, temp collection, the alloca
loop, the statement loop (with `last_was_jump` initially false), and the
final `unreachable` when the loop did not end on a terminator. -/
def translateBody (params : List (Name × llvm.Value)) (body : List lir.Stm)
    (b0 : llvm.Builder) : Except EmitErr llvm.Builder :=
  let entry := (llvm.appendBB b0).1
  let b1 := (llvm.appendBB b0).2
  let b2 := llvm.positionAtEnd entry b1
  let temps := collectTemps body
  let tempMap := (allocaLoop params temps b2).1
  let b3 := (allocaLoop params temps b2).2
  match stmLoop ⟨params, tempMap⟩ body false b3 with
  | .error er => .error er
  | .ok (lwj, b4) => if lwj then .ok b4 else .ok (llvm.emit .unreachableI b4).2

/-- `translate_proc`'s parameter map: each formal is bound to its incoming
SSA parameter value (`fun.get_param(i)`), no slot. -/
def paramsMap : List lir.Param → ℕ → List (Name × llvm.Value)
  | [], _ => []
  | p :: ps, i => (p.name, .param i) :: paramsMap ps (i + 1)

/-- `ProcTranslator::translate_proc`. -/
def translateProc (p : lir.Proc) (b0 : llvm.Builder) : Except EmitErr llvm.Builder :=
  translateBody (paramsMap p.params 0) p.body b0

/-! ### Reference models for the fall-through rule (claim C5)

`specC5TranslateBody` follows the claim's words: a fall-through `br` is
inserted at `Label(l)` iff the statement immediately preceding it in the
body (whatever it is, `Label` and `Nop` included) is not a terminator, and
the trailing `unreachable` is emitted iff the body's literal last statement
is not a terminator.  `amendedC5TranslateBody` follows the amended rule: the
relevant statement is the most recent one other than `Label` / `Nop` (none
existing counts as "not a terminator").  Both share the emitter's
`translate_stm` and differ from `translateBody` only in bookkeeping. -/

/-- Is the (optional) tracked statement a terminator? -/
def termOfPrev : Option lir.Stm → Bool
  | some s => isTerminatorStm s
  | none => false

/-- The statement loop under the claim's literal rule: `prev` is the
immediately preceding statement of the body. -/
def specC5Loop (ctx : Ctx) : List lir.Stm → Option lir.Stm → llvm.Builder →
    Except EmitErr (Option lir.Stm × llvm.Builder)
  | [], prev, b => .ok (prev, b)
  | .Label label :: rest, prev, b =>
      let bb := (toBB label b).1
      let b2 := (toBB label b).2
      let b3 := if termOfPrev prev then b2 else (llvm.emit (.br bb) b2).2
      specC5Loop ctx rest (some (.Label label)) (llvm.positionAtEnd bb b3)
  | .Nop :: rest, _, b => specC5Loop ctx rest (some .Nop) b
  | s :: rest, _, b =>
      match translateStm ctx s b with
      | .error er => .error er
      | .ok b2 => specC5Loop ctx rest (some s) b2

/-- The whole-body translation under the claim's literal rule. -/
def specC5TranslateBody (params : List (Name × llvm.Value)) (body : List lir.Stm)
    (b0 : llvm.Builder) : Except EmitErr llvm.Builder :=
  let entry := (llvm.appendBB b0).1
  let b1 := (llvm.appendBB b0).2
  let b2 := llvm.positionAtEnd entry b1
  let temps := collectTemps body
  let tempMap := (allocaLoop params temps b2).1
  let b3 := (allocaLoop params temps b2).2
  match specC5Loop ⟨params, tempMap⟩ body none b3 with
  | .error er => .error er
  | .ok (prev, b4) =>
      if termOfPrev prev then .ok b4 else .ok (llvm.emit .unreachableI b4).2

/-- The statement loop under the amended rule: `prev` is the most recent
non-`Label`, non-`Nop` statement. -/
def amendedC5Loop (ctx : Ctx) : List lir.Stm → Option lir.Stm → llvm.Builder →
    Except EmitErr (Option lir.Stm × llvm.Builder)
  | [], prev, b => .ok (prev, b)
  | .Label label :: rest, prev, b =>
      let bb := (toBB label b).1
      let b2 := (toBB label b).2
      let b3 := if termOfPrev prev then b2 else (llvm.emit (.br bb) b2).2
      amendedC5Loop ctx rest prev (llvm.positionAtEnd bb b3)
  | .Nop :: rest, prev, b => amendedC5Loop ctx rest prev b
  | s :: rest, _, b =>
      match translateStm ctx s b with
      | .error er => .error er
      | .ok b2 => amendedC5Loop ctx rest (some s) b2

/-- The whole-body translation under the amended rule. -/
def amendedC5TranslateBody (params : List (Name × llvm.Value)) (body : List lir.Stm)
    (b0 : llvm.Builder) : Except EmitErr llvm.Builder :=
  let entry := (llvm.appendBB b0).1
  let b1 := (llvm.appendBB b0).2
  let b2 := llvm.positionAtEnd entry b1
  let temps := collectTemps body
  let tempMap := (allocaLoop params temps b2).1
  let b3 := (allocaLoop params temps b2).2
  match amendedC5Loop ⟨params, tempMap⟩ body none b3 with
  | .error er => .error er
  | .ok (prev, b4) =>
      if termOfPrev prev then .ok b4 else .ok (llvm.emit .unreachableI b4).2

/-! ### Operand and address positions of an LIR statement -/

/-- Every subexpression of a statement, in the order `add_temps_for_stm`
visits them. -/
def operandsOf : lir.Stm → List lir.Exp
  | .Nop => []
  | .CJump cmp _ _ => [cmp]
  | .Jump _ => []
  | .Ret exp => [exp]
  | .Store dst_addr src => [dst_addr, src]
  | .Load dst src_addr => [dst, src_addr]
  | .Move dst src => [dst, src]
  | .Call dst f args => dst :: f :: args
  | .Binary dst _ e1 e2 => [dst, e1, e2]
  | .Unary dst _ exp => [dst, exp]
  | .Cast dst _ exp => [dst, exp]
  | .Label _ => []
  | .GetStructElementAddr dst _ ptr _ => [dst, ptr]
  | .GetArrayElementAddr dst _ ptr index => [dst, ptr, index]
  | .GetArrayLengthAddr dst ptr => [dst, ptr]

/-- The destination of the six destination-carrying statement kinds named by
claim C10. -/
def dstOf : lir.Stm → Option lir.Exp
  | .Move dst _ => some dst
  | .Load dst _ => some dst
  | .Call dst _ _ => some dst
  | .Binary dst _ _ _ => some dst
  | .Unary dst _ _ => some dst
  | .Cast dst _ _ => some dst
  | _ => none

/-- The expressions `translate_stm` hands directly to `to_addr`: the
destinations of `Move` / `Load` / `Call` / `Binary` / `Unary` / `Cast`,
`Store`'s target address, `Load`'s source address, and `Call`'s callee. -/
def addrExpsOf : lir.Stm → List lir.Exp
  | .Store dst_addr _ => [dst_addr]
  | .Load dst src_addr => [src_addr, dst]
  | .Move dst _ => [dst]
  | .Call dst f _ => [f, dst]
  | .Binary dst _ _ _ => [dst]
  | .Unary dst _ _ => [dst]
  | .Cast dst _ _ => [dst]
  | _ => []

/-- The three-part bound on a free variable `x` of a substituted term: it
was free and unmapped; or it arose from the image of a mapped free variable;
or it is a free assignment target that `subst` left in place. -/
def SubstBound (s : Subst) (fvs ats : Finset Name) (x : Name) : Prop :=
  (x ∈ fvs ∧ s x = none) ∨
  (∃ y ∈ fvs, ∃ v, s y = some v ∧ x ∈ hircc.fvExp v) ∨
  (x ∈ ats ∧ (s x).isSome)

deriving instance DecidableEq for llvm.Value

/-! # Theorems -/

/-! ## Substitution restriction lemmas -/

/-- Removing every `Let`-bound name from a substitution is the pointwise
restriction by the bound-name set. -/
theorem removeFields_apply :
    ∀ (fs : hircc.FieldList) (s : Subst) (y : Name),
      Subst.removeFields s fs y =
        if y ∈ fs.boundNames then none else s y
  | .nil, s, y => by
      simp [Subst.removeFields, hircc.FieldList.boundNames]
  | .cons f fs, s, y => by
      simp only [Subst.removeFields, hircc.FieldList.boundNames,
        removeFields_apply fs, Subst.remove, Finset.mem_insert]
      by_cases h1 : y ∈ fs.boundNames <;> by_cases h2 : y = f.param.name <;> simp [h1, h2]

/-- Removing every parameter name from a substitution is the pointwise
restriction by the parameter-name set. -/
theorem removeParams_apply :
    ∀ (ps : hir.ParamList) (s : Subst) (y : Name),
      Subst.removeParams s ps y =
        if y ∈ ps.names then none else s y
  | .nil, s, y => by
      simp [Subst.removeParams, hir.ParamList.names]
  | .cons p ps, s, y => by
      simp only [Subst.removeParams, hir.ParamList.names,
        removeParams_apply ps, Subst.remove, Finset.mem_insert]
      by_cases h1 : y ∈ ps.names <;> by_cases h2 : y = p.name <;> simp [h1, h2]

/-- C8: substitution respects binders by shadowing: on `Let{inits, body}` the
body is substituted under σ with every `inits`-bound name removed (while the
initializers see the unrestricted σ), and on
`LambdaCC{env_param, params, body}` the body is substituted under σ with the
env parameter name and every parameter name removed. -/
theorem c8_subst_respects_binders :
    (∀ (inits : hircc.FieldList) (body : hircc.Exp) (s : Subst),
      hircc.substExp (.Let inits body) s =
        .Let (hircc.substFieldList inits s)
          (hircc.substExp body
            (fun y => if y ∈ inits.boundNames then none else s y))) ∧
    (∀ (ret_type : hir.Ty) (env_param : hir.Param) (params : hir.ParamList)
        (body : hircc.Exp) (s : Subst),
      hircc.substExp (.LambdaCC ret_type env_param params body) s =
        .LambdaCC ret_type env_param params
          (hircc.substExp body
            (fun y => if y ∈ insert env_param.name params.names then none
                      else s y))) := by
  constructor
  · intro inits body s
    simp only [hircc.substExp]
    have h : s.removeFields inits =
        fun y => if y ∈ inits.boundNames then none else s y := by
      funext y
      exact removeFields_apply inits s y
    rw [h]
  · intro ret_type env_param params body s
    simp only [hircc.substExp]
    have h : (s.remove env_param.name).removeParams params =
        fun y => if y ∈ insert env_param.name params.names then none else s y := by
      funext y
      rw [removeParams_apply]
      simp only [Subst.remove, Finset.mem_insert]
      by_cases h1 : y ∈ params.names <;> by_cases h2 : y = env_param.name <;>
        simp [h1, h2]
    rw [h]

/-- C7: `fv(Let{inits, body})` is the free variables of the body minus the
bound names, unioned with the free variables of every initializer; in
particular a binding's own name occurring free in its initializer is free in
the whole `Let` (parallel let, not letrec). -/
theorem c7_fv_let_parallel :
    (∀ (inits : hir.FieldList) (body : hir.Exp),
      hir.fvExp (.Let inits body) =
        (hir.fvExp body \ inits.boundNames) ∪ hir.fvFieldInits inits) ∧
    (∀ (inits : hir.FieldList) (body : hir.Exp) (x : Name),
      x ∈ hir.fvFieldInits inits → x ∈ hir.fvExp (.Let inits body)) := by
  constructor
  · intro inits body
    simp only [hir.fvExp, Finset.sdiff_eq_filter]
  · intro inits body x hx
    simp only [hir.fvExp, Finset.mem_union]
    exact Or.inr hx

/-- Witness for C7 at a concrete input: in `let x = x in 0` the binding's own
name `x` (= 5) is free. -/
theorem c7_fv_let_parallel_witness :
    (5 : Name) ∈ hir.fvExp (.Let (.cons (.mk (.mk .I32 5) (.Var 5 .I32)) .nil)
      (.Lit (.I32 0))) :=
  c7_fv_let_parallel.2 _ _ 5 (by decide)

/-- C3: the emitter's `GetStructElementAddr` / `GetArrayElementAddr` /
`GetArrayLengthAddr` arms do not synthesize pointer arithmetic — they are
`unimplemented!()` stubs and abort; the array layout
`Struct{ length: Word, body: Array }` does hold for the type translation. -/
theorem c3_getaddr_unimplemented :
    (∀ (ctx : Ctx) (b : llvm.Builder) (dst : lir.Exp) (ty : lir.Ty)
        (ptr : lir.Exp) (idx : ℕ),
      translateStm ctx (.GetStructElementAddr dst ty ptr idx) b =
        .error .unimplementedStm) ∧
    (∀ (ctx : Ctx) (b : llvm.Builder) (dst : lir.Exp) (ty : lir.Ty)
        (ptr index : lir.Exp),
      translateStm ctx (.GetArrayElementAddr dst ty ptr index) b =
        .error .unimplementedStm) ∧
    (∀ (ctx : Ctx) (b : llvm.Builder) (dst ptr : lir.Exp),
      translateStm ctx (.GetArrayLengthAddr dst ptr) b =
        .error .unimplementedStm) ∧
    (∀ ty : lir.Ty,
      toType (.Array ty) = .structT [toType .Word, .array (toType ty) 0]) := by
  refine ⟨?_, ?_, ?_, ?_⟩ <;> intros <;> rfl

/-- Monotonicity of `SubstBound` in both sets. -/
theorem SubstBound.mono {s : Subst} {f1 a1 f2 a2 : Finset Name} {x : Name}
    (hb : SubstBound s f1 a1 x) (hf : f1 ⊆ f2) (ha : a1 ⊆ a2) :
    SubstBound s f2 a2 x := by
  rcases hb with ⟨h1, h2⟩ | ⟨y, hy, v, hyv, hxv⟩ | ⟨h1, h2⟩
  · exact Or.inl ⟨hf h1, h2⟩
  · exact Or.inr (Or.inl ⟨y, hf hy, v, hyv, hxv⟩)
  · exact Or.inr (Or.inr ⟨ha h1, h2⟩)

/-- Substitution does not change the names bound by an initializer list. -/
theorem boundNames_substFieldList :
    ∀ (fs : hircc.FieldList) (s : Subst),
      (hircc.substFieldList fs s).boundNames = fs.boundNames
  | .nil, _ => rfl
  | .cons (.mk p e) fs, s => by
      simp [hircc.substFieldList, hircc.FieldList.boundNames,
        boundNames_substFieldList fs s, hircc.Field.param]

mutual
theorem fvSubstExp :
    ∀ (e : hircc.Exp) (s : Subst) (x : Name),
      x ∈ hircc.fvExp (hircc.substExp e s) →
      SubstBound s (hircc.fvExp e) (hircc.atExp e) x
  | .NewArray _ length, s, x, hx => by
      simp only [hircc.substExp, hircc.fvExp, hircc.atExp] at hx ⊢
      exact fvSubstExp length s x hx
  | .ArrayLit _ exps, s, x, hx => by
      simp only [hircc.substExp, hircc.fvExp, hircc.atExp] at hx ⊢
      exact fvSubstExpList exps s x hx
  | .ArrayLoad _ _ array index, s, x, hx => by
      simp only [hircc.substExp, hircc.fvExp, hircc.atExp, Finset.mem_union] at hx ⊢
      rcases hx with h | h
      · exact (fvSubstExp array s x h).mono Finset.subset_union_left
          Finset.subset_union_left
      · exact (fvSubstExp index s x h).mono Finset.subset_union_right
          Finset.subset_union_right
  | .ArrayLength array, s, x, hx => by
      simp only [hircc.substExp, hircc.fvExp, hircc.atExp] at hx ⊢
      exact fvSubstExp array s x hx
  | .Lit _, s, x, hx => by
      simp only [hircc.substExp, hircc.fvExp] at hx
      exact absurd hx (Finset.not_mem_empty x)
  | .Call _ _ args, s, x, hx => by
      simp only [hircc.substExp, hircc.fvExp, hircc.atExp] at hx ⊢
      exact fvSubstExpList args s x hx
  | .Var n ty, s, x, hx => by
      simp only [hircc.fvExp, hircc.atExp]
      cases hsn : s n with
      | none =>
          simp only [hircc.substExp, hsn, hircc.fvExp, Finset.mem_singleton] at hx
          subst hx
          exact Or.inl ⟨Finset.mem_singleton_self x, hsn⟩
      | some v =>
          simp only [hircc.substExp, hsn] at hx
          exact Or.inr (Or.inl ⟨n, Finset.mem_singleton_self n, v, hsn, hx⟩)
  | .Binary _ e1 e2, s, x, hx => by
      simp only [hircc.substExp, hircc.fvExp, hircc.atExp, Finset.mem_union] at hx ⊢
      rcases hx with h | h
      · exact (fvSubstExp e1 s x h).mono Finset.subset_union_left
          Finset.subset_union_left
      · exact (fvSubstExp e2 s x h).mono Finset.subset_union_right
          Finset.subset_union_right
  | .Unary _ exp, s, x, hx => by
      simp only [hircc.substExp, hircc.fvExp, hircc.atExp] at hx ⊢
      exact fvSubstExp exp s x hx
  | .Seq body exp, s, x, hx => by
      simp only [hircc.substExp, hircc.fvExp, hircc.atExp, Finset.mem_union] at hx ⊢
      rcases hx with h | h
      · exact (fvSubstStm body s x h).mono Finset.subset_union_left
          Finset.subset_union_left
      · exact (fvSubstExp exp s x h).mono Finset.subset_union_right
          Finset.subset_union_right
  | .Let inits body, s, x, hx => by
      simp only [hircc.substExp, hircc.fvExp, Finset.mem_union, Finset.mem_filter,
        boundNames_substFieldList] at hx
      simp only [hircc.fvExp, hircc.atExp]
      rcases hx with ⟨hb, hnb⟩ | h
      · have ih := fvSubstExp body (s.removeFields inits) x hb
        rcases ih with ⟨hfv, hnone⟩ | ⟨y, hy, v, hyv, hxv⟩ | ⟨hat, hsome⟩
        · refine Or.inl ⟨Finset.mem_union_left _ (Finset.mem_filter.2 ⟨hfv, hnb⟩), ?_⟩
          rw [removeFields_apply] at hnone
          simpa [hnb] using hnone
        · rw [removeFields_apply] at hyv
          by_cases hyB : y ∈ inits.boundNames
          · simp [hyB] at hyv
          · refine Or.inr (Or.inl ⟨y,
              Finset.mem_union_left _ (Finset.mem_filter.2 ⟨hy, hyB⟩), v,
              by simpa [hyB] using hyv, hxv⟩)
        · rw [removeFields_apply] at hsome
          by_cases hxB : x ∈ inits.boundNames
          · simp [hxB] at hsome
          · exact Or.inr (Or.inr
              ⟨Finset.mem_union_left _ (Finset.mem_filter.2 ⟨hat, hxB⟩),
               by simpa [hxB] using hsome⟩)
      · exact (fvSubstFieldInits inits s x h).mono Finset.subset_union_right
          Finset.subset_union_right
  | .LambdaCC rt envp ps body, s, x, hx => by
      simp only [hircc.substExp, hircc.fvExp, Finset.mem_filter] at hx
      simp only [hircc.fvExp, hircc.atExp]
      obtain ⟨hb, hnb⟩ := hx
      have hs : ∀ y, Subst.removeParams (s.remove envp.name) ps y =
          if y ∈ insert envp.name ps.names then none else s y := by
        intro y
        rw [removeParams_apply]
        simp only [Subst.remove, Finset.mem_insert]
        by_cases h1 : y ∈ ps.names <;> by_cases h2 : y = envp.name <;> simp [h1, h2]
      have ih := fvSubstExp body (Subst.removeParams (s.remove envp.name) ps) x hb
      rcases ih with ⟨hfv, hnone⟩ | ⟨y, hy, v, hyv, hxv⟩ | ⟨hat, hsome⟩
      · refine Or.inl ⟨Finset.mem_filter.2 ⟨hfv, hnb⟩, ?_⟩
        rw [hs] at hnone
        simpa [hnb] using hnone
      · rw [hs] at hyv
        by_cases hyB : y ∈ insert envp.name ps.names
        · simp [hyB] at hyv
        · exact Or.inr (Or.inl ⟨y, Finset.mem_filter.2 ⟨hy, hyB⟩, v,
            by simpa [hyB] using hyv, hxv⟩)
      · rw [hs] at hsome
        by_cases hxB : x ∈ insert envp.name ps.names
        · simp [hxB] at hsome
        · exact Or.inr (Or.inr ⟨Finset.mem_filter.2 ⟨hat, hxB⟩,
            by simpa [hxB] using hsome⟩)
  | .ApplyCC _ f args, s, x, hx => by
      simp only [hircc.substExp, hircc.fvExp, hircc.atExp, Finset.mem_union] at hx ⊢
      rcases hx with h | h
      · exact (fvSubstExp f s x h).mono Finset.subset_union_left
          Finset.subset_union_left
      · exact (fvSubstExpList args s x h).mono Finset.subset_union_right
          Finset.subset_union_right
  | .StructLit fields, s, x, hx => by
      simp only [hircc.substExp, hircc.fvExp, hircc.atExp] at hx ⊢
      exact fvSubstFieldInits fields s x hx
  | .StructLoad _ base _, s, x, hx => by
      simp only [hircc.substExp, hircc.fvExp, hircc.atExp] at hx ⊢
      exact fvSubstExp base s x hx
  | .Box _ exp, s, x, hx => by
      simp only [hircc.substExp, hircc.fvExp, hircc.atExp] at hx ⊢
      exact fvSubstExp exp s x hx
  | .Unbox _ exp, s, x, hx => by
      simp only [hircc.substExp, hircc.fvExp, hircc.atExp] at hx ⊢
      exact fvSubstExp exp s x hx
  | .Cast _ exp, s, x, hx => by
      simp only [hircc.substExp, hircc.fvExp, hircc.atExp] at hx ⊢
      exact fvSubstExp exp s x hx
theorem fvSubstExpList :
    ∀ (es : hircc.ExpList) (s : Subst) (x : Name),
      x ∈ hircc.fvExpList (hircc.substExpList es s) →
      SubstBound s (hircc.fvExpList es) (hircc.atExpList es) x
  | .nil, s, x, hx => by
      simp only [hircc.substExpList, hircc.fvExpList] at hx
      exact absurd hx (Finset.not_mem_empty x)
  | .cons e es, s, x, hx => by
      simp only [hircc.substExpList, hircc.fvExpList, hircc.atExpList,
        Finset.mem_union] at hx ⊢
      rcases hx with h | h
      · exact (fvSubstExp e s x h).mono Finset.subset_union_left
          Finset.subset_union_left
      · exact (fvSubstExpList es s x h).mono Finset.subset_union_right
          Finset.subset_union_right
theorem fvSubstStm :
    ∀ (st : hircc.Stm) (s : Subst) (x : Name),
      x ∈ hircc.fvStm (hircc.substStm st s) →
      SubstBound s (hircc.fvStm st) (hircc.atStm st) x
  | .IfElse cond t f, s, x, hx => by
      simp only [hircc.substStm, hircc.fvStm, hircc.atStm, Finset.mem_union] at hx ⊢
      rcases hx with h | h | h
      · exact (fvSubstExp cond s x h).mono Finset.subset_union_left
          Finset.subset_union_left
      · exact (fvSubstStm t s x h).mono
          (Finset.subset_union_left.trans Finset.subset_union_right)
          (Finset.subset_union_left.trans Finset.subset_union_right)
      · exact (fvSubstStm f s x h).mono
          (Finset.subset_union_right.trans Finset.subset_union_right)
          (Finset.subset_union_right.trans Finset.subset_union_right)
  | .IfThen cond t, s, x, hx => by
      simp only [hircc.substStm, hircc.fvStm, hircc.atStm, Finset.mem_union] at hx ⊢
      rcases hx with h | h
      · exact (fvSubstExp cond s x h).mono Finset.subset_union_left
          Finset.subset_union_left
      · exact (fvSubstStm t s x h).mono Finset.subset_union_right
          Finset.subset_union_right
  | .While cond body, s, x, hx => by
      simp only [hircc.substStm, hircc.fvStm, hircc.atStm, Finset.mem_union] at hx ⊢
      rcases hx with h | h
      · exact (fvSubstExp cond s x h).mono Finset.subset_union_left
          Finset.subset_union_left
      · exact (fvSubstStm body s x h).mono Finset.subset_union_right
          Finset.subset_union_right
  | .Return exp, s, x, hx => by
      simp only [hircc.substStm, hircc.fvStm, hircc.atStm] at hx ⊢
      exact fvSubstExp exp s x hx
  | .Block body, s, x, hx => by
      simp only [hircc.substStm, hircc.fvStm, hircc.atStm] at hx ⊢
      exact fvSubstStmList body s x hx
  | .Eval exp, s, x, hx => by
      simp only [hircc.substStm, hircc.fvStm, hircc.atStm] at hx ⊢
      exact fvSubstExp exp s x hx
  | .Assign ty lhs rhs, s, x, hx => by
      simp only [hircc.substStm, hircc.fvStm, Finset.mem_insert] at hx
      simp only [hircc.fvStm, hircc.atStm]
      rcases hx with rfl | h
      · cases hsx : s x with
        | none => exact Or.inl ⟨Finset.mem_insert_self x _, hsx⟩
        | some v =>
            exact Or.inr (Or.inr ⟨Finset.mem_insert_self x _, by simp [hsx]⟩)
      · exact (fvSubstExp rhs s x h).mono (Finset.subset_insert _ _)
          (Finset.subset_insert _ _)
  | .ArrayAssign bc ty array index value, s, x, hx => by
      simp only [hircc.substStm, hircc.fvStm, hircc.atStm, Finset.mem_union] at hx ⊢
      rcases hx with h | h | h
      · exact (fvSubstExp array s x h).mono Finset.subset_union_left
          Finset.subset_union_left
      · exact (fvSubstExp index s x h).mono
          (Finset.subset_union_left.trans Finset.subset_union_right)
          (Finset.subset_union_left.trans Finset.subset_union_right)
      · exact (fvSubstExp value s x h).mono
          (Finset.subset_union_right.trans Finset.subset_union_right)
          (Finset.subset_union_right.trans Finset.subset_union_right)
  | .StructAssign ty base field value, s, x, hx => by
      simp only [hircc.substStm, hircc.fvStm, hircc.atStm, Finset.mem_union] at hx ⊢
      rcases hx with h | h
      · exact (fvSubstExp base s x h).mono Finset.subset_union_left
          Finset.subset_union_left
      · exact (fvSubstExp value s x h).mono Finset.subset_union_right
          Finset.subset_union_right
theorem fvSubstStmList :
    ∀ (ss : hircc.StmList) (s : Subst) (x : Name),
      x ∈ hircc.fvStmList (hircc.substStmList ss s) →
      SubstBound s (hircc.fvStmList ss) (hircc.atStmList ss) x
  | .nil, s, x, hx => by
      simp only [hircc.substStmList, hircc.fvStmList] at hx
      exact absurd hx (Finset.not_mem_empty x)
  | .cons s1 ss, s, x, hx => by
      simp only [hircc.substStmList, hircc.fvStmList, hircc.atStmList,
        Finset.mem_union] at hx ⊢
      rcases hx with h | h
      · exact (fvSubstStm s1 s x h).mono Finset.subset_union_left
          Finset.subset_union_left
      · exact (fvSubstStmList ss s x h).mono Finset.subset_union_right
          Finset.subset_union_right
theorem fvSubstFieldInits :
    ∀ (fs : hircc.FieldList) (s : Subst) (x : Name),
      x ∈ hircc.fvFieldInits (hircc.substFieldList fs s) →
      SubstBound s (hircc.fvFieldInits fs) (hircc.atFieldInits fs) x
  | .nil, s, x, hx => by
      simp only [hircc.substFieldList, hircc.fvFieldInits] at hx
      exact absurd hx (Finset.not_mem_empty x)
  | .cons (.mk p e) fs, s, x, hx => by
      simp only [hircc.substFieldList, hircc.fvFieldInits, hircc.atFieldInits,
        Finset.mem_union] at hx ⊢
      rcases hx with h | h
      · exact (fvSubstExp e s x h).mono Finset.subset_union_left
          Finset.subset_union_left
      · exact (fvSubstFieldInits fs s x h).mono Finset.subset_union_right
          Finset.subset_union_right
end

mutual
theorem atExp_subset_fvExp : ∀ e : hircc.Exp, hircc.atExp e ⊆ hircc.fvExp e
  | .NewArray _ length => by
      simp only [hircc.atExp, hircc.fvExp]
      exact atExp_subset_fvExp length
  | .ArrayLit _ exps => by
      simp only [hircc.atExp, hircc.fvExp]
      exact atExpList_subset_fvExpList exps
  | .ArrayLoad _ _ array index => by
      simp only [hircc.atExp, hircc.fvExp]
      exact Finset.union_subset_union (atExp_subset_fvExp array)
        (atExp_subset_fvExp index)
  | .ArrayLength array => by
      simp only [hircc.atExp, hircc.fvExp]
      exact atExp_subset_fvExp array
  | .Lit _ => by
      simp only [hircc.atExp, hircc.fvExp]
      exact Finset.Subset.refl _
  | .Call _ _ args => by
      simp only [hircc.atExp, hircc.fvExp]
      exact atExpList_subset_fvExpList args
  | .Var _ _ => by
      simp only [hircc.atExp, hircc.fvExp]
      exact Finset.empty_subset _
  | .Binary _ e1 e2 => by
      simp only [hircc.atExp, hircc.fvExp]
      exact Finset.union_subset_union (atExp_subset_fvExp e1) (atExp_subset_fvExp e2)
  | .Unary _ exp => by
      simp only [hircc.atExp, hircc.fvExp]
      exact atExp_subset_fvExp exp
  | .Seq body exp => by
      simp only [hircc.atExp, hircc.fvExp]
      exact Finset.union_subset_union (atStm_subset_fvStm body) (atExp_subset_fvExp exp)
  | .Let inits body => by
      simp only [hircc.atExp, hircc.fvExp]
      exact Finset.union_subset_union
        (Finset.filter_subset_filter _ (atExp_subset_fvExp body))
        (atFieldInits_subset_fvFieldInits inits)
  | .LambdaCC _ envp ps body => by
      simp only [hircc.atExp, hircc.fvExp]
      exact Finset.filter_subset_filter _ (atExp_subset_fvExp body)
  | .ApplyCC _ f args => by
      simp only [hircc.atExp, hircc.fvExp]
      exact Finset.union_subset_union (atExp_subset_fvExp f)
        (atExpList_subset_fvExpList args)
  | .StructLit fields => by
      simp only [hircc.atExp, hircc.fvExp]
      exact atFieldInits_subset_fvFieldInits fields
  | .StructLoad _ base _ => by
      simp only [hircc.atExp, hircc.fvExp]
      exact atExp_subset_fvExp base
  | .Box _ exp => by
      simp only [hircc.atExp, hircc.fvExp]
      exact atExp_subset_fvExp exp
  | .Unbox _ exp => by
      simp only [hircc.atExp, hircc.fvExp]
      exact atExp_subset_fvExp exp
  | .Cast _ exp => by
      simp only [hircc.atExp, hircc.fvExp]
      exact atExp_subset_fvExp exp
theorem atExpList_subset_fvExpList :
    ∀ es : hircc.ExpList, hircc.atExpList es ⊆ hircc.fvExpList es
  | .nil => by
      simp only [hircc.atExpList, hircc.fvExpList]
      exact Finset.Subset.refl _
  | .cons e es => by
      simp only [hircc.atExpList, hircc.fvExpList]
      exact Finset.union_subset_union (atExp_subset_fvExp e)
        (atExpList_subset_fvExpList es)
theorem atStm_subset_fvStm : ∀ st : hircc.Stm, hircc.atStm st ⊆ hircc.fvStm st
  | .IfElse cond t f => by
      simp only [hircc.atStm, hircc.fvStm]
      exact Finset.union_subset_union (atExp_subset_fvExp cond)
        (Finset.union_subset_union (atStm_subset_fvStm t) (atStm_subset_fvStm f))
  | .IfThen cond t => by
      simp only [hircc.atStm, hircc.fvStm]
      exact Finset.union_subset_union (atExp_subset_fvExp cond) (atStm_subset_fvStm t)
  | .While cond body => by
      simp only [hircc.atStm, hircc.fvStm]
      exact Finset.union_subset_union (atExp_subset_fvExp cond)
        (atStm_subset_fvStm body)
  | .Return exp => by
      simp only [hircc.atStm, hircc.fvStm]
      exact atExp_subset_fvExp exp
  | .Block body => by
      simp only [hircc.atStm, hircc.fvStm]
      exact atStmList_subset_fvStmList body
  | .Eval exp => by
      simp only [hircc.atStm, hircc.fvStm]
      exact atExp_subset_fvExp exp
  | .Assign _ lhs rhs => by
      simp only [hircc.atStm, hircc.fvStm]
      exact Finset.insert_subset_insert _ (atExp_subset_fvExp rhs)
  | .ArrayAssign _ _ array index value => by
      simp only [hircc.atStm, hircc.fvStm]
      exact Finset.union_subset_union (atExp_subset_fvExp array)
        (Finset.union_subset_union (atExp_subset_fvExp index)
          (atExp_subset_fvExp value))
  | .StructAssign _ base _ value => by
      simp only [hircc.atStm, hircc.fvStm]
      exact Finset.union_subset_union (atExp_subset_fvExp base)
        (atExp_subset_fvExp value)
theorem atStmList_subset_fvStmList :
    ∀ ss : hircc.StmList, hircc.atStmList ss ⊆ hircc.fvStmList ss
  | .nil => by
      simp only [hircc.atStmList, hircc.fvStmList]
      exact Finset.Subset.refl _
  | .cons s ss => by
      simp only [hircc.atStmList, hircc.fvStmList]
      exact Finset.union_subset_union (atStm_subset_fvStm s)
        (atStmList_subset_fvStmList ss)
theorem atFieldInits_subset_fvFieldInits :
    ∀ fs : hircc.FieldList, hircc.atFieldInits fs ⊆ hircc.fvFieldInits fs
  | .nil => by
      simp only [hircc.atFieldInits, hircc.fvFieldInits]
      exact Finset.Subset.refl _
  | .cons (.mk p e) fs => by
      simp only [hircc.atFieldInits, hircc.fvFieldInits]
      exact Finset.union_subset_union (atExp_subset_fvExp e)
        (atFieldInits_subset_fvFieldInits fs)
end

/-- C9, as stated, is false: in `(x := 0; 0)` under σ = [x ↦ 0], the `Assign`
left-hand side `x` stays free in the substituted term but the claimed bound
excludes it.  (Concrete input: `e = Seq(Assign{I32, 5, Lit 0}, Lit 0)`,
`σ = [5 ↦ Lit 0]`.) -/
theorem c9_counterexample :
    ¬ (∀ (e : hircc.Exp) (s : Subst),
        hircc.fvExp (hircc.substExp e s) ⊆
          ((hircc.fvExp e).filter (fun x => s x = none)) ∪
          (hircc.fvExp e).biUnion s.optFv) := by
  intro h
  have h5 := h (.Seq (.Assign .I32 5 (.Lit (.I32 0))) (.Lit (.I32 0)))
    (fun y => if y = 5 then some (.Lit (.I32 0)) else none)
    (by decide : (5 : Name) ∈ _)
  exact absurd h5 (by decide)

/-- C9 (amended): `fv(subst(e, σ))` is contained in
`(fv(e) \ dom σ) ∪ ⋃_{x ∈ fv(e) ∩ dom σ} fv(σ(x))` **unioned with the free
assignment-target names of `e` that are in `dom σ`** — substitution leaves
`Assign` left-hand sides in place, so those mapped names may stay free. -/
theorem c9_fv_subst_subset :
    ∀ (e : hircc.Exp) (s : Subst),
      hircc.fvExp (hircc.substExp e s) ⊆
        ((hircc.fvExp e).filter (fun x => s x = none)) ∪
        (hircc.fvExp e).biUnion s.optFv ∪
        ((hircc.atExp e).filter (fun x => (s x).isSome)) := by
  intro e s x hx
  rcases fvSubstExp e s x hx with ⟨h1, h2⟩ | ⟨y, hy, v, hyv, hxv⟩ | ⟨h1, h2⟩
  · exact Finset.mem_union_left _
      (Finset.mem_union_left _ (Finset.mem_filter.2 ⟨h1, h2⟩))
  · refine Finset.mem_union_left _ (Finset.mem_union_right _ ?_)
    exact Finset.mem_biUnion.2 ⟨y, hy, by simp [Subst.optFv, hyv, hxv]⟩
  · exact Finset.mem_union_right _ (Finset.mem_filter.2 ⟨h1, h2⟩)

/-- Coarse corollary of the substitution bound: a free variable of
`subst(e, σ)` is free in `e` or free in some image `σ(y)` of a free `y`. -/
theorem fv_subst_coarse (e : hircc.Exp) (s : Subst) (x : Name)
    (hx : x ∈ hircc.fvExp (hircc.substExp e s)) :
    x ∈ hircc.fvExp e ∨
      ∃ y ∈ hircc.fvExp e, ∃ v, s y = some v ∧ x ∈ hircc.fvExp v := by
  rcases fvSubstExp e s x hx with ⟨h1, _⟩ | h | ⟨h1, _⟩
  · exact Or.inl h1
  · exact Or.inr h
  · exact Or.inl (atExp_subset_fvExp e h1)

/-- The environment-record fields constructed for a capture list have exactly
the captured names free. -/
theorem fvFieldInits_ccEnvFields :
    ∀ l : List Name, hircc.fvFieldInits (ccEnvFields l) = l.toFinset
  | [] => by simp [ccEnvFields, hircc.fvFieldInits]
  | x :: xs => by
      simp [ccEnvFields, hircc.fvFieldInits, hircc.fvExp,
        fvFieldInits_ccEnvFields xs, Finset.insert_eq]

/-- The sorted enumeration of a finite name set has exactly that set of
members. -/
theorem sortedNames_toFinset (s : Finset Name) : (sortedNames s).toFinset = s := by
  rcases s with ⟨m, hm⟩
  induction m using Quotient.inductionOn with
  | h l =>
      ext x
      simp only [sortedNames, Quotient.liftOn_mk, List.mem_toFinset]
      rw [(List.perm_insertionSort _ l).mem_iff]
      simp [Finset.mem_mk]

/-- Closure conversion preserves the bound names of an initializer list. -/
theorem convertFieldList_boundNames :
    ∀ (fs : hir.FieldList) (c : ℕ),
      ((convertFieldList fs c).1).boundNames = fs.boundNames
  | .nil, _ => rfl
  | .cons (.mk p e) fs, c => by
      simp [convertFieldList, hircc.FieldList.boundNames, hir.FieldList.boundNames,
        convertFieldList_boundNames fs, hircc.Field.param, hir.Field.param]

mutual
theorem convertExp_fv :
    ∀ (e : hir.Exp) (c : ℕ), hircc.fvExp (convertExp e c).1 = hir.fvExp e
  | .NewArray ty length, c => by
      simp only [convertExp, hircc.fvExp, hir.fvExp, convertExp_fv length c]
  | .ArrayLit ty exps, c => by
      simp only [convertExp, hircc.fvExp, hir.fvExp, convertExpList_fv exps c]
  | .ArrayLoad bc ty array index, c => by
      simp only [convertExp, hircc.fvExp, hir.fvExp, convertExp_fv array c,
        convertExp_fv index (convertExp array c).2]
  | .ArrayLength array, c => by
      simp only [convertExp, hircc.fvExp, hir.fvExp, convertExp_fv array c]
  | .Lit lit, c => by
      simp only [convertExp, hircc.fvExp, hir.fvExp]
  | .Call fun_type name args, c => by
      simp only [convertExp, hircc.fvExp, hir.fvExp, convertExpList_fv args c]
  | .Var name ty, c => by
      simp only [convertExp, hircc.fvExp, hir.fvExp]
  | .Binary op e1 e2, c => by
      simp only [convertExp, hircc.fvExp, hir.fvExp, convertExp_fv e1 c,
        convertExp_fv e2 (convertExp e1 c).2]
  | .Unary op exp, c => by
      simp only [convertExp, hircc.fvExp, hir.fvExp, convertExp_fv exp c]
  | .Seq body exp, c => by
      simp only [convertExp, hircc.fvExp, hir.fvExp, convertStm_fv body c,
        convertExp_fv exp (convertStm body c).2]
  | .Let inits body, c => by
      simp only [convertExp, hircc.fvExp, hir.fvExp, convertFieldList_boundNames,
        convertFieldList_fv inits c, convertExp_fv body (convertFieldList inits c).2]
  | .Lambda rt ps body, c => by
      have ihb := convertExp_fv body (c + 1)
      simp only [convertExp, hircc.fvExp, hircc.fvFieldInits, hir.Param.name]
      rw [fvFieldInits_ccEnvFields, sortedNames_toFinset]
      rw [Finset.union_empty, Finset.union_eq_right]
      intro x hx
      rw [Finset.mem_filter] at hx
      obtain ⟨hcc, hnot⟩ := hx
      rcases fv_subst_coarse _ _ _ hcc with h | ⟨y, hy, v, hyv, hxv⟩
      · rw [ihb] at h
        simp only [hir.fvExp, Finset.mem_filter]
        exact ⟨h, fun hmem => hnot (Finset.mem_insert_of_mem hmem)⟩
      · by_cases hyV : y ∈ hir.fvExp (.Lambda rt ps body)
        · rw [if_pos hyV] at hyv
          cases hyv
          simp only [hircc.fvExp, Finset.mem_singleton] at hxv
          subst hxv
          exact absurd (Finset.mem_insert_self _ _) hnot
        · rw [if_neg hyV] at hyv
          cases hyv
  | .Apply fun_type f args, c => by
      simp only [convertExp, hircc.fvExp, hir.fvExp, convertExp_fv f c,
        convertExpList_fv args (convertExp f c).2]
  | .StructLit fields, c => by
      simp only [convertExp, hircc.fvExp, hir.fvExp, convertFieldList_fv fields c]
  | .StructLoad ty base field, c => by
      simp only [convertExp, hircc.fvExp, hir.fvExp, convertExp_fv base c]
  | .Box ty exp, c => by
      simp only [convertExp, hircc.fvExp, hir.fvExp, convertExp_fv exp c]
  | .Unbox ty exp, c => by
      simp only [convertExp, hircc.fvExp, hir.fvExp, convertExp_fv exp c]
  | .Cast ty exp, c => by
      simp only [convertExp, hircc.fvExp, hir.fvExp, convertExp_fv exp c]
theorem convertExpList_fv :
    ∀ (es : hir.ExpList) (c : ℕ),
      hircc.fvExpList (convertExpList es c).1 = hir.fvExpList es
  | .nil, c => by
      simp only [convertExpList, hircc.fvExpList, hir.fvExpList]
  | .cons e es, c => by
      simp only [convertExpList, hircc.fvExpList, hir.fvExpList, convertExp_fv e c,
        convertExpList_fv es (convertExp e c).2]
theorem convertStm_fv :
    ∀ (st : hir.Stm) (c : ℕ), hircc.fvStm (convertStm st c).1 = hir.fvStm st
  | .IfElse cond t f, c => by
      simp only [convertStm, hircc.fvStm, hir.fvStm, convertExp_fv cond c,
        convertStm_fv t (convertExp cond c).2,
        convertStm_fv f (convertStm t (convertExp cond c).2).2]
  | .IfThen cond t, c => by
      simp only [convertStm, hircc.fvStm, hir.fvStm, convertExp_fv cond c,
        convertStm_fv t (convertExp cond c).2]
  | .While cond body, c => by
      simp only [convertStm, hircc.fvStm, hir.fvStm, convertExp_fv cond c,
        convertStm_fv body (convertExp cond c).2]
  | .Return exp, c => by
      simp only [convertStm, hircc.fvStm, hir.fvStm, convertExp_fv exp c]
  | .Block body, c => by
      simp only [convertStm, hircc.fvStm, hir.fvStm, convertStmList_fv body c]
  | .Eval exp, c => by
      simp only [convertStm, hircc.fvStm, hir.fvStm, convertExp_fv exp c]
  | .Assign ty lhs rhs, c => by
      simp only [convertStm, hircc.fvStm, hir.fvStm, convertExp_fv rhs c]
  | .ArrayAssign bc ty array index value, c => by
      simp only [convertStm, hircc.fvStm, hir.fvStm, convertExp_fv array c,
        convertExp_fv index (convertExp array c).2,
        convertExp_fv value (convertExp index (convertExp array c).2).2]
  | .StructAssign ty base field value, c => by
      simp only [convertStm, hircc.fvStm, hir.fvStm, convertExp_fv base c,
        convertExp_fv value (convertExp base c).2]
theorem convertStmList_fv :
    ∀ (ss : hir.StmList) (c : ℕ),
      hircc.fvStmList (convertStmList ss c).1 = hir.fvStmList ss
  | .nil, c => by
      simp only [convertStmList, hircc.fvStmList, hir.fvStmList]
  | .cons s ss, c => by
      simp only [convertStmList, hircc.fvStmList, hir.fvStmList, convertStm_fv s c,
        convertStmList_fv ss (convertStm s c).2]
theorem convertFieldList_fv :
    ∀ (fs : hir.FieldList) (c : ℕ),
      hircc.fvFieldInits (convertFieldList fs c).1 = hir.fvFieldInits fs
  | .nil, c => by
      simp only [convertFieldList, hircc.fvFieldInits, hir.fvFieldInits]
  | .cons (.mk p e) fs, c => by
      simp only [convertFieldList, hircc.fvFieldInits, hir.fvFieldInits,
        convertExp_fv e c, convertFieldList_fv fs (convertExp e c).2]
end

/-- C2: for every HIR expression `e` (and any state of the fresh-name
counter), closure conversion preserves the set of program-level free
variables: `fv(convert(e)) = fv(e)`. -/
theorem c2_convert_preserves_fv :
    ∀ (e : hir.Exp) (c : ℕ), hircc.fvExp (convertExp e c).1 = hir.fvExp e :=
  convertExp_fv

/-- `no_lambda` distributes over list append of definitions. -/
theorem noLambdaDefs_append (l1 l2 : List hir.Def) :
    hir.noLambdaDefs (l1 ++ l2) = (hir.noLambdaDefs l1 && hir.noLambdaDefs l2) := by
  induction l1 with
  | nil => simp [hir.noLambdaDefs]
  | cons d ds ih => simp [hir.noLambdaDefs, ih, Bool.and_assoc]

/-- `no_lambda` distributes over expression-list append. -/
theorem noLambdaExpList_append :
    ∀ xs ys : hir.ExpList,
      hir.noLambdaExpList (xs.append ys) =
        (hir.noLambdaExpList xs && hir.noLambdaExpList ys)
  | .nil, ys => by simp [hir.ExpList.append, hir.noLambdaExpList]
  | .cons x xs, ys => by
      simp [hir.ExpList.append, hir.noLambdaExpList,
        noLambdaExpList_append xs ys, Bool.and_assoc]

mutual
theorem liftExp_noLambda :
    ∀ (e : hircc.Exp) (st : LiftSt) (out : hir.Exp × LiftSt),
      liftExp e st = some out → hir.noLambdaDefs st.decls = true →
      hir.noLambdaExp out.1 = true ∧ hir.noLambdaDefs out.2.decls = true
  | .NewArray ty length, st, out, hout, hdecls => by
      simp only [liftExp] at hout
      cases h1 : liftExp length st with
      | none => simp [h1] at hout
      | some p =>
          obtain ⟨a2, st2⟩ := p
          simp only [h1] at hout
          cases hout
          have ih := liftExp_noLambda length st (a2, st2) h1 hdecls
          exact ⟨by simp [hir.noLambdaExp, ih.1], ih.2⟩
  | .ArrayLit ty exps, st, out, hout, hdecls => by
      simp only [liftExp] at hout
      cases h1 : liftExpList exps st with
      | none => simp [h1] at hout
      | some p =>
          obtain ⟨a2, st2⟩ := p
          simp only [h1] at hout
          cases hout
          have ih := liftExpList_noLambda exps st (a2, st2) h1 hdecls
          exact ⟨by simp [hir.noLambdaExp, ih.1], ih.2⟩
  | .ArrayLoad bc ty array index, st, out, hout, hdecls => by
      simp only [liftExp] at hout
      cases h1 : liftExp array st with
      | none => simp [h1] at hout
      | some p =>
          obtain ⟨a2, st2⟩ := p
          simp only [h1] at hout
          cases h2 : liftExp index st2 with
          | none => simp [h2] at hout
          | some q =>
              obtain ⟨b2, st3⟩ := q
              simp only [h2] at hout
              cases hout
              have ih1 := liftExp_noLambda array st (a2, st2) h1 hdecls
              have ih2 := liftExp_noLambda index st2 (b2, st3) h2 ih1.2
              exact ⟨by simp [hir.noLambdaExp, ih1.1, ih2.1], ih2.2⟩
  | .ArrayLength array, st, out, hout, hdecls => by
      simp only [liftExp] at hout
      cases h1 : liftExp array st with
      | none => simp [h1] at hout
      | some p =>
          obtain ⟨a2, st2⟩ := p
          simp only [h1] at hout
          cases hout
          have ih := liftExp_noLambda array st (a2, st2) h1 hdecls
          exact ⟨by simp [hir.noLambdaExp, ih.1], ih.2⟩
  | .Lit lit, st, out, hout, hdecls => by
      simp only [liftExp] at hout
      cases hout
      exact ⟨by simp [hir.noLambdaExp], hdecls⟩
  | .Call fun_type name args, st, out, hout, hdecls => by
      simp only [liftExp] at hout
      cases h1 : liftExpList args st with
      | none => simp [h1] at hout
      | some p =>
          obtain ⟨a2, st2⟩ := p
          simp only [h1] at hout
          cases hout
          have ih := liftExpList_noLambda args st (a2, st2) h1 hdecls
          exact ⟨by simp [hir.noLambdaExp, ih.1], ih.2⟩
  | .Var name ty, st, out, hout, hdecls => by
      simp only [liftExp] at hout
      cases hout
      exact ⟨by simp [hir.noLambdaExp], hdecls⟩
  | .Binary op ea eb, st, out, hout, hdecls => by
      simp only [liftExp] at hout
      cases h1 : liftExp ea st with
      | none => simp [h1] at hout
      | some p =>
          obtain ⟨a2, st2⟩ := p
          simp only [h1] at hout
          cases h2 : liftExp eb st2 with
          | none => simp [h2] at hout
          | some q =>
              obtain ⟨b2, st3⟩ := q
              simp only [h2] at hout
              cases hout
              have ih1 := liftExp_noLambda ea st (a2, st2) h1 hdecls
              have ih2 := liftExp_noLambda eb st2 (b2, st3) h2 ih1.2
              exact ⟨by simp [hir.noLambdaExp, ih1.1, ih2.1], ih2.2⟩
  | .Unary op exp, st, out, hout, hdecls => by
      simp only [liftExp] at hout
      cases h1 : liftExp exp st with
      | none => simp [h1] at hout
      | some p =>
          obtain ⟨a2, st2⟩ := p
          simp only [h1] at hout
          cases hout
          have ih := liftExp_noLambda exp st (a2, st2) h1 hdecls
          exact ⟨by simp [hir.noLambdaExp, ih.1], ih.2⟩
  | .Seq body exp, st, out, hout, hdecls => by
      simp only [liftExp] at hout
      cases h1 : liftStm body st with
      | none => simp [h1] at hout
      | some p =>
          obtain ⟨a2, st2⟩ := p
          simp only [h1] at hout
          cases h2 : liftExp exp st2 with
          | none => simp [h2] at hout
          | some q =>
              obtain ⟨b2, st3⟩ := q
              simp only [h2] at hout
              cases hout
              have ih1 := liftStm_noLambda body st (a2, st2) h1 hdecls
              have ih2 := liftExp_noLambda exp st2 (b2, st3) h2 ih1.2
              exact ⟨by simp [hir.noLambdaExp, ih1.1, ih2.1], ih2.2⟩
  | .Let inits body, st, out, hout, hdecls => by
      simp only [liftExp] at hout
      cases h1 : liftFieldList inits st with
      | none => simp [h1] at hout
      | some p =>
          obtain ⟨a2, st2⟩ := p
          simp only [h1] at hout
          cases h2 : liftExp body st2 with
          | none => simp [h2] at hout
          | some q =>
              obtain ⟨b2, st3⟩ := q
              simp only [h2] at hout
              cases hout
              have ih1 := liftFieldList_noLambda inits st (a2, st2) h1 hdecls
              have ih2 := liftExp_noLambda body st2 (b2, st3) h2 ih1.2
              exact ⟨by simp [hir.noLambdaExp, ih1.1, ih2.1], ih2.2⟩
  | .LambdaCC ret_type env_param params body, st, out, hout, hdecls => by
      simp only [liftExp] at hout
      cases h1 : liftExp body ⟨st.ctr + 2, st.decls⟩ with
      | none => simp [h1] at hout
      | some p =>
          obtain ⟨lifted_body, st2⟩ := p
          simp only [h1] at hout
          cases hout
          have ih := liftExp_noLambda body ⟨st.ctr + 2, st.decls⟩ (lifted_body, st2) h1 hdecls
          refine ⟨by simp [hir.noLambdaExp], ?_⟩
          simp only [noLambdaDefs_append, ih.2, Bool.true_and]
          simp [hir.noLambdaDefs, hir.noLambdaDef, hir.noLambdaExp,
            hir.noLambdaFieldList, ih.1]
  | .ApplyCC fun_type f args, st, out, hout, hdecls => by
      simp only [liftExp] at hout
      cases h1 : liftExpList args ⟨st.ctr + 1, st.decls⟩ with
      | none => simp [h1] at hout
      | some p =>
          obtain ⟨cargs, st2⟩ := p
          simp only [h1] at hout
          have ih1 := liftExpList_noLambda args ⟨st.ctr + 1, st.decls⟩ (cargs, st2) h1 hdecls
          cases fun_type with
          | Fun ret fargs =>
              simp only at hout
              cases h2 : liftExp f st2 with
              | none => simp [h2] at hout
              | some q =>
                  obtain ⟨f2, st3⟩ := q
                  simp only [h2] at hout
                  cases hout
                  have ih2 := liftExp_noLambda f st2 (f2, st3) h2 ih1.2
                  refine ⟨?_, ih2.2⟩
                  simp [hir.noLambdaExp, hir.noLambdaFieldList, ih2.1,
                    noLambdaExpList_append, ih1.1, hir.noLambdaExpList]
          | I8 => simp at hout
          | I16 => simp at hout
          | I32 => simp at hout
          | I64 => simp at hout
          | F32 => simp at hout
          | F64 => simp at hout
          | Bool => simp at hout
          | Void => simp at hout
          | Array ty => simp at hout
          | Struct fields => simp at hout
          | Union variants => simp at hout
          | Box => simp at hout
  | .StructLit fields, st, out, hout, hdecls => by
      simp only [liftExp] at hout
      cases h1 : liftFieldList fields st with
      | none => simp [h1] at hout
      | some p =>
          obtain ⟨a2, st2⟩ := p
          simp only [h1] at hout
          cases hout
          have ih := liftFieldList_noLambda fields st (a2, st2) h1 hdecls
          exact ⟨by simp [hir.noLambdaExp, ih.1], ih.2⟩
  | .StructLoad ty base field, st, out, hout, hdecls => by
      simp only [liftExp] at hout
      cases h1 : liftExp base st with
      | none => simp [h1] at hout
      | some p =>
          obtain ⟨a2, st2⟩ := p
          simp only [h1] at hout
          cases hout
          have ih := liftExp_noLambda base st (a2, st2) h1 hdecls
          exact ⟨by simp [hir.noLambdaExp, ih.1], ih.2⟩
  | .Box ty exp, st, out, hout, hdecls => by
      simp only [liftExp] at hout
      cases h1 : liftExp exp st with
      | none => simp [h1] at hout
      | some p =>
          obtain ⟨a2, st2⟩ := p
          simp only [h1] at hout
          cases hout
          have ih := liftExp_noLambda exp st (a2, st2) h1 hdecls
          exact ⟨by simp [hir.noLambdaExp, ih.1], ih.2⟩
  | .Unbox ty exp, st, out, hout, hdecls => by
      simp only [liftExp] at hout
      cases h1 : liftExp exp st with
      | none => simp [h1] at hout
      | some p =>
          obtain ⟨a2, st2⟩ := p
          simp only [h1] at hout
          cases hout
          have ih := liftExp_noLambda exp st (a2, st2) h1 hdecls
          exact ⟨by simp [hir.noLambdaExp, ih.1], ih.2⟩
  | .Cast ty exp, st, out, hout, hdecls => by
      simp only [liftExp] at hout
      cases h1 : liftExp exp st with
      | none => simp [h1] at hout
      | some p =>
          obtain ⟨a2, st2⟩ := p
          simp only [h1] at hout
          cases hout
          have ih := liftExp_noLambda exp st (a2, st2) h1 hdecls
          exact ⟨by simp [hir.noLambdaExp, ih.1], ih.2⟩
theorem liftExpList_noLambda :
    ∀ (es : hircc.ExpList) (st : LiftSt) (out : hir.ExpList × LiftSt),
      liftExpList es st = some out → hir.noLambdaDefs st.decls = true →
      hir.noLambdaExpList out.1 = true ∧ hir.noLambdaDefs out.2.decls = true
  | .nil, st, out, hout, hdecls => by
      simp only [liftExpList] at hout
      cases hout
      exact ⟨by simp [hir.noLambdaExpList], hdecls⟩
  | .cons e es, st, out, hout, hdecls => by
      simp only [liftExpList] at hout
      cases h1 : liftExp e st with
      | none => simp [h1] at hout
      | some p =>
          obtain ⟨a2, st2⟩ := p
          simp only [h1] at hout
          cases h2 : liftExpList es st2 with
          | none => simp [h2] at hout
          | some q =>
              obtain ⟨b2, st3⟩ := q
              simp only [h2] at hout
              cases hout
              have ih1 := liftExp_noLambda e st (a2, st2) h1 hdecls
              have ih2 := liftExpList_noLambda es st2 (b2, st3) h2 ih1.2
              exact ⟨by simp [hir.noLambdaExpList, ih1.1, ih2.1], ih2.2⟩
theorem liftStm_noLambda :
    ∀ (s : hircc.Stm) (st : LiftSt) (out : hir.Stm × LiftSt),
      liftStm s st = some out → hir.noLambdaDefs st.decls = true →
      hir.noLambdaStm out.1 = true ∧ hir.noLambdaDefs out.2.decls = true
  | .IfElse cond t f, st, out, hout, hdecls => by
      simp only [liftStm] at hout
      cases h1 : liftExp cond st with
      | none => simp [h1] at hout
      | some p =>
          obtain ⟨a2, st2⟩ := p
          simp only [h1] at hout
          cases h2 : liftStm t st2 with
          | none => simp [h2] at hout
          | some q =>
              obtain ⟨b2, st3⟩ := q
              simp only [h2] at hout
              cases h3 : liftStm f st3 with
              | none => simp [h3] at hout
              | some r =>
                  obtain ⟨c2, st4⟩ := r
                  simp only [h3] at hout
                  cases hout
                  have ih1 := liftExp_noLambda cond st (a2, st2) h1 hdecls
                  have ih2 := liftStm_noLambda t st2 (b2, st3) h2 ih1.2
                  have ih3 := liftStm_noLambda f st3 (c2, st4) h3 ih2.2
                  exact ⟨by simp [hir.noLambdaStm, ih1.1, ih2.1, ih3.1], ih3.2⟩
  | .IfThen cond t, st, out, hout, hdecls => by
      simp only [liftStm] at hout
      cases h1 : liftExp cond st with
      | none => simp [h1] at hout
      | some p =>
          obtain ⟨a2, st2⟩ := p
          simp only [h1] at hout
          cases h2 : liftStm t st2 with
          | none => simp [h2] at hout
          | some q =>
              obtain ⟨b2, st3⟩ := q
              simp only [h2] at hout
              cases hout
              have ih1 := liftExp_noLambda cond st (a2, st2) h1 hdecls
              have ih2 := liftStm_noLambda t st2 (b2, st3) h2 ih1.2
              exact ⟨by simp [hir.noLambdaStm, ih1.1, ih2.1], ih2.2⟩
  | .While cond body, st, out, hout, hdecls => by
      simp only [liftStm] at hout
      cases h1 : liftExp cond st with
      | none => simp [h1] at hout
      | some p =>
          obtain ⟨a2, st2⟩ := p
          simp only [h1] at hout
          cases h2 : liftStm body st2 with
          | none => simp [h2] at hout
          | some q =>
              obtain ⟨b2, st3⟩ := q
              simp only [h2] at hout
              cases hout
              have ih1 := liftExp_noLambda cond st (a2, st2) h1 hdecls
              have ih2 := liftStm_noLambda body st2 (b2, st3) h2 ih1.2
              exact ⟨by simp [hir.noLambdaStm, ih1.1, ih2.1], ih2.2⟩
  | .Return exp, st, out, hout, hdecls => by
      simp only [liftStm] at hout
      cases h1 : liftExp exp st with
      | none => simp [h1] at hout
      | some p =>
          obtain ⟨a2, st2⟩ := p
          simp only [h1] at hout
          cases hout
          have ih := liftExp_noLambda exp st (a2, st2) h1 hdecls
          exact ⟨by simp [hir.noLambdaStm, ih.1], ih.2⟩
  | .Block body, st, out, hout, hdecls => by
      simp only [liftStm] at hout
      cases h1 : liftStmList body st with
      | none => simp [h1] at hout
      | some p =>
          obtain ⟨a2, st2⟩ := p
          simp only [h1] at hout
          cases hout
          have ih := liftStmList_noLambda body st (a2, st2) h1 hdecls
          exact ⟨by simp [hir.noLambdaStm, ih.1], ih.2⟩
  | .Eval exp, st, out, hout, hdecls => by
      simp only [liftStm] at hout
      cases h1 : liftExp exp st with
      | none => simp [h1] at hout
      | some p =>
          obtain ⟨a2, st2⟩ := p
          simp only [h1] at hout
          cases hout
          have ih := liftExp_noLambda exp st (a2, st2) h1 hdecls
          exact ⟨by simp [hir.noLambdaStm, ih.1], ih.2⟩
  | .Assign ty lhs rhs, st, out, hout, hdecls => by
      simp only [liftStm] at hout
      cases h1 : liftExp rhs st with
      | none => simp [h1] at hout
      | some p =>
          obtain ⟨a2, st2⟩ := p
          simp only [h1] at hout
          cases hout
          have ih := liftExp_noLambda rhs st (a2, st2) h1 hdecls
          exact ⟨by simp [hir.noLambdaStm, ih.1], ih.2⟩
  | .ArrayAssign bc ty array index value, st, out, hout, hdecls => by
      simp only [liftStm] at hout
      cases h1 : liftExp array st with
      | none => simp [h1] at hout
      | some p =>
          obtain ⟨a2, st2⟩ := p
          simp only [h1] at hout
          cases h2 : liftExp index st2 with
          | none => simp [h2] at hout
          | some q =>
              obtain ⟨b2, st3⟩ := q
              simp only [h2] at hout
              cases h3 : liftExp value st3 with
              | none => simp [h3] at hout
              | some r =>
                  obtain ⟨c2, st4⟩ := r
                  simp only [h3] at hout
                  cases hout
                  have ih1 := liftExp_noLambda array st (a2, st2) h1 hdecls
                  have ih2 := liftExp_noLambda index st2 (b2, st3) h2 ih1.2
                  have ih3 := liftExp_noLambda value st3 (c2, st4) h3 ih2.2
                  exact ⟨by simp [hir.noLambdaStm, ih1.1, ih2.1, ih3.1], ih3.2⟩
  | .StructAssign ty base field value, st, out, hout, hdecls => by
      simp only [liftStm] at hout
      cases h1 : liftExp base st with
      | none => simp [h1] at hout
      | some p =>
          obtain ⟨a2, st2⟩ := p
          simp only [h1] at hout
          cases h2 : liftExp value st2 with
          | none => simp [h2] at hout
          | some q =>
              obtain ⟨b2, st3⟩ := q
              simp only [h2] at hout
              cases hout
              have ih1 := liftExp_noLambda base st (a2, st2) h1 hdecls
              have ih2 := liftExp_noLambda value st2 (b2, st3) h2 ih1.2
              exact ⟨by simp [hir.noLambdaStm, ih1.1, ih2.1], ih2.2⟩
theorem liftStmList_noLambda :
    ∀ (ss : hircc.StmList) (st : LiftSt) (out : hir.StmList × LiftSt),
      liftStmList ss st = some out → hir.noLambdaDefs st.decls = true →
      hir.noLambdaStmList out.1 = true ∧ hir.noLambdaDefs out.2.decls = true
  | .nil, st, out, hout, hdecls => by
      simp only [liftStmList] at hout
      cases hout
      exact ⟨by simp [hir.noLambdaStmList], hdecls⟩
  | .cons s ss, st, out, hout, hdecls => by
      simp only [liftStmList] at hout
      cases h1 : liftStm s st with
      | none => simp [h1] at hout
      | some p =>
          obtain ⟨a2, st2⟩ := p
          simp only [h1] at hout
          cases h2 : liftStmList ss st2 with
          | none => simp [h2] at hout
          | some q =>
              obtain ⟨b2, st3⟩ := q
              simp only [h2] at hout
              cases hout
              have ih1 := liftStm_noLambda s st (a2, st2) h1 hdecls
              have ih2 := liftStmList_noLambda ss st2 (b2, st3) h2 ih1.2
              exact ⟨by simp [hir.noLambdaStmList, ih1.1, ih2.1], ih2.2⟩
theorem liftFieldList_noLambda :
    ∀ (fs : hircc.FieldList) (st : LiftSt) (out : hir.FieldList × LiftSt),
      liftFieldList fs st = some out → hir.noLambdaDefs st.decls = true →
      hir.noLambdaFieldList out.1 = true ∧ hir.noLambdaDefs out.2.decls = true
  | .nil, st, out, hout, hdecls => by
      simp only [liftFieldList] at hout
      cases hout
      exact ⟨by simp [hir.noLambdaFieldList], hdecls⟩
  | .cons (.mk p e) fs, st, out, hout, hdecls => by
      simp only [liftFieldList] at hout
      cases h1 : liftExp e st with
      | none => simp [h1] at hout
      | some pa =>
          obtain ⟨a2, st2⟩ := pa
          simp only [h1] at hout
          cases h2 : liftFieldList fs st2 with
          | none => simp [h2] at hout
          | some q =>
              obtain ⟨b2, st3⟩ := q
              simp only [h2] at hout
              cases hout
              have ih1 := liftExp_noLambda e st (a2, st2) h1 hdecls
              have ih2 := liftFieldList_noLambda fs st2 (b2, st3) h2 ih1.2
              exact ⟨by simp [hir.noLambdaFieldList, ih1.1, ih2.1], ih2.2⟩
end

/-- Lifting one definition yields a lambda-free definition and preserves the
lambda-freeness of the accumulated declarations. -/
theorem liftDef_noLambda (d : hir.Def) (st : LiftSt) (out : hir.Def × LiftSt)
    (hout : liftDef d st = some out) (hdecls : hir.noLambdaDefs st.decls = true) :
    hir.noLambdaDef out.1 = true ∧ hir.noLambdaDefs out.2.decls = true := by
  cases d with
  | VarDef ty name exp =>
      simp only [liftDef] at hout
      cases h1 : liftExp (convertExp exp st.ctr).1 ⟨(convertExp exp st.ctr).2, st.decls⟩ with
      | none => simp [h1] at hout
      | some p =>
          obtain ⟨e2, st2⟩ := p
          simp only [h1] at hout
          cases hout
          have ih := liftExp_noLambda _ _ _ h1 hdecls
          exact ⟨by simp [hir.noLambdaDef, ih.1], ih.2⟩
  | FunDef ret_type name params body =>
      simp only [liftDef] at hout
      cases h1 : liftExp (convertExp body st.ctr).1 ⟨(convertExp body st.ctr).2, st.decls⟩ with
      | none => simp [h1] at hout
      | some p =>
          obtain ⟨b2, st2⟩ := p
          simp only [h1] at hout
          cases hout
          have ih := liftExp_noLambda _ _ _ h1 hdecls
          exact ⟨by simp [hir.noLambdaDef, ih.1], ih.2⟩
  | ExternDef ret_type name params =>
      simp only [liftDef] at hout
      cases hout
      exact ⟨by simp [hir.noLambdaDef], hdecls⟩

/-- Lifting a list of definitions yields lambda-free definitions and a
lambda-free declaration accumulator. -/
theorem liftDefs_noLambda :
    ∀ (ds : List hir.Def) (st : LiftSt) (out : List hir.Def × LiftSt),
      liftDefs ds st = some out → hir.noLambdaDefs st.decls = true →
      hir.noLambdaDefs out.1 = true ∧ hir.noLambdaDefs out.2.decls = true
  | [], st, out, hout, hdecls => by
      simp only [liftDefs] at hout
      cases hout
      exact ⟨rfl, hdecls⟩
  | d :: ds, st, out, hout, hdecls => by
      simp only [liftDefs] at hout
      cases h1 : liftDef d st with
      | none => simp [h1] at hout
      | some p =>
          obtain ⟨d2, st2⟩ := p
          simp only [h1] at hout
          cases h2 : liftDefs ds st2 with
          | none => simp [h2] at hout
          | some q =>
              obtain ⟨ds2, st3⟩ := q
              simp only [h2] at hout
              cases hout
              have ih1 := liftDef_noLambda d st (d2, st2) h1 hdecls
              have ih2 := liftDefs_noLambda ds st2 (ds2, st3) h2 ih1.2
              exact ⟨by simp [hir.noLambdaDefs, ih1.1, ih2.1], ih2.2⟩

/-- C1: for every HIR root (and any incoming fresh-name counter), when
`Lift::lift` — closure conversion of each definition body followed by
lifting — succeeds, the result contains no `Lambda` node anywhere, the
bodies of the newly appended lifted `FunDef`s included. -/
theorem c1_lift_no_lambda (root : hir.Root) (c : ℕ) (out : hir.Root)
    (hout : liftRoot root c = some out) : hir.noLambdaRoot out = true := by
  simp only [liftRoot] at hout
  cases h1 : liftDefs root.defs ⟨c, []⟩ with
  | none => simp [h1] at hout
  | some p =>
      obtain ⟨defs2, st⟩ := p
      simp only [h1] at hout
      cases hout
      have ih := liftDefs_noLambda root.defs ⟨c, []⟩ (defs2, st) h1 rfl
      simp [hir.noLambdaRoot, noLambdaDefs_append, ih.1, ih.2]

/-- Witness for C1 at a concrete program: `var v = (λ(). 7)()` — the lift
succeeds and the lifted root is lambda-free. -/
theorem c1_lift_no_lambda_witness :
    hir.noLambdaRoot
      ((liftRoot ⟨[.VarDef .I32 50
          (.Apply (.Fun .I32 .nil) (.Lambda .I32 .nil (.Lit (.I32 7))) .nil)]⟩ 200).getD
        ⟨[]⟩) = true :=
  c1_lift_no_lambda
    ⟨[.VarDef .I32 50
        (.Apply (.Fun .I32 .nil) (.Lambda .I32 .nil (.Lit (.I32 7))) .nil)]⟩ 200
    ((liftRoot ⟨[.VarDef .I32 50
        (.Apply (.Fun .I32 .nil) (.Lambda .I32 .nil (.Lit (.I32 7))) .nil)]⟩ 200).getD
      ⟨[]⟩) (by decide)

/-- C6: an `ApplyCC{fun_type = Fun(ret, argTys), fun, args}` lifts to a `Let`
binding the fresh name `closure` (the current counter value) to the lifted
`fun`, whose body applies `closure.fun` to the lifted `args` followed by
`closure.env`, at the function type extended with a trailing empty-struct
environment argument; the lifted `fun` occurs exactly once, as the `Let`
initializer, so the closure record is evaluated exactly once. -/
theorem c6_applycc_lift (ret : hir.Ty) (argTys : hir.TyList) (f : hircc.Exp)
    (args : hircc.ExpList) (st st2 st3 : LiftSt) (args2 : hir.ExpList)
    (f2 : hir.Exp)
    (hargs : liftExpList args ⟨st.ctr + 1, st.decls⟩ = some (args2, st2))
    (hf : liftExp f st2 = some (f2, st3)) :
    liftExp (.ApplyCC (.Fun ret argTys) f args) st =
      some
        (.Let
          (.cons (.mk (.mk (.Struct (.cons (.mk (.Fun ret argTys) funName)
              (.cons (.mk (.Struct .nil) envName) .nil))) st.ctr) f2) .nil)
          (.Apply (.Fun ret (argTys.append (.cons (.Struct .nil) .nil)))
            (.StructLoad
              (.Struct (.cons (.mk (.Fun ret argTys) funName)
                (.cons (.mk (.Struct .nil) envName) .nil)))
              (.Var st.ctr (.Struct (.cons (.mk (.Fun ret argTys) funName)
                (.cons (.mk (.Struct .nil) envName) .nil))))
              funName)
            (args2.append (.cons (.StructLoad
              (.Struct (.cons (.mk (.Fun ret argTys) funName)
                (.cons (.mk (.Struct .nil) envName) .nil)))
              (.Var st.ctr (.Struct (.cons (.mk (.Fun ret argTys) funName)
                (.cons (.mk (.Struct .nil) envName) .nil))))
              envName) .nil))),
         st3) := by
  simp only [liftExp, hargs, hf]

/-- Witness for C6 at a concrete input: `ApplyCC{Fun(I32,[]), Var 7, []}`
lifted at counter 10. -/
theorem c6_applycc_lift_witness :
    liftExp (.ApplyCC (.Fun .I32 .nil) (.Var 7 (.Fun .I32 .nil)) .nil)
        (⟨10, []⟩ : LiftSt) =
      some
        (.Let
          (.cons (.mk (.mk (.Struct (.cons (.mk (.Fun .I32 .nil) funName)
              (.cons (.mk (.Struct .nil) envName) .nil))) 10)
            (.Var 7 (.Fun .I32 .nil))) .nil)
          (.Apply (.Fun .I32 (hir.TyList.append .nil (.cons (.Struct .nil) .nil)))
            (.StructLoad
              (.Struct (.cons (.mk (.Fun .I32 .nil) funName)
                (.cons (.mk (.Struct .nil) envName) .nil)))
              (.Var 10 (.Struct (.cons (.mk (.Fun .I32 .nil) funName)
                (.cons (.mk (.Struct .nil) envName) .nil))))
              funName)
            (hir.ExpList.append .nil (.cons (.StructLoad
              (.Struct (.cons (.mk (.Fun .I32 .nil) funName)
                (.cons (.mk (.Struct .nil) envName) .nil)))
              (.Var 10 (.Struct (.cons (.mk (.Fun .I32 .nil) funName)
                (.cons (.mk (.Struct .nil) envName) .nil))))
              envName) .nil))),
         (⟨11, []⟩ : LiftSt)) :=
  c6_applycc_lift .I32 .nil (.Var 7 (.Fun .I32 .nil)) .nil ⟨10, []⟩ ⟨11, []⟩
    ⟨11, []⟩ .nil (.Var 7 (.Fun .I32 .nil)) rfl rfl

/-! ## Temporary-collector characterization -/

/-- Membership after one `add_temps_for_exp` step. -/
theorem mem_addTempsForExp (e : lir.Exp) (temps : List (Name × lir.Ty))
    (n : Name) (t : lir.Ty) :
    (n, t) ∈ addTempsForExp e temps ↔ (n, t) ∈ temps ∨ lir.Exp.Temp n t = e := by
  cases e with
  | Temp m ty =>
      simp only [addTempsForExp, lir.Exp.Temp.injEq]
      by_cases h : (m, ty) ∈ temps
      · simp only [if_pos h]
        constructor
        · exact Or.inl
        · rintro (hm | ⟨rfl, rfl⟩)
          · exact hm
          · exact h
      · simp only [if_neg h, List.mem_append, List.mem_singleton, Prod.mk.injEq]
  | Global a b => simp [addTempsForExp]
  | Function a b => simp [addTempsForExp]
  | Lit l => simp [addTempsForExp]

/-- Membership after folding `add_temps_for_exp` over a list of argument
expressions. -/
theorem mem_foldl_addTempsForExp :
    ∀ (args : List lir.Exp) (init : List (Name × lir.Ty)) (n : Name) (t : lir.Ty),
      (n, t) ∈ args.foldl (fun acc a => addTempsForExp a acc) init ↔
        (n, t) ∈ init ∨ lir.Exp.Temp n t ∈ args
  | [], init, n, t => by simp
  | a :: args, init, n, t => by
      simp only [List.foldl_cons, mem_foldl_addTempsForExp args, mem_addTempsForExp,
        List.mem_cons]
      tauto

/-- Membership after one `add_temps_for_stm` step: the collected pairs grow
by exactly the `Temp`s among the statement's operands. -/
theorem mem_addTempsForStm (s : lir.Stm) (temps : List (Name × lir.Ty))
    (n : Name) (t : lir.Ty) :
    (n, t) ∈ addTempsForStm s temps ↔
      (n, t) ∈ temps ∨ lir.Exp.Temp n t ∈ operandsOf s := by
  cases s <;>
    simp [addTempsForStm, operandsOf, mem_addTempsForExp,
      mem_foldl_addTempsForExp, List.mem_cons] <;>
    tauto

/-- Membership in the fold of `add_temps_for_stm` over a body. -/
theorem mem_foldl_addTempsForStm :
    ∀ (body : List lir.Stm) (init : List (Name × lir.Ty)) (n : Name) (t : lir.Ty),
      (n, t) ∈ body.foldl (fun acc s => addTempsForStm s acc) init ↔
        (n, t) ∈ init ∨ ∃ s, s ∈ body ∧ lir.Exp.Temp n t ∈ operandsOf s
  | [], init, n, t => by simp
  | s :: body, init, n, t => by
      simp only [List.foldl_cons, mem_foldl_addTempsForStm body, mem_addTempsForStm,
        List.mem_cons]
      constructor
      · rintro ((h | h) | ⟨s2, hs2, ho⟩)
        · exact Or.inl h
        · exact Or.inr ⟨s, Or.inl rfl, h⟩
        · exact Or.inr ⟨s2, Or.inr hs2, ho⟩
      · rintro (h | ⟨s2, (rfl | hs2), ho⟩)
        · exact Or.inl (Or.inl h)
        · exact Or.inl (Or.inr ho)
        · exact Or.inr ⟨s2, hs2, ho⟩

/-- The collector finds exactly the `(name, type)` pairs of the `Temp`s
occurring in the body. -/
theorem mem_collectTemps :
    ∀ (body : List lir.Stm) (n : Name) (t : lir.Ty),
      (n, t) ∈ collectTemps body ↔
        ∃ s, s ∈ body ∧ lir.Exp.Temp n t ∈ operandsOf s := by
  intro body n t
  rw [collectTemps, mem_foldl_addTempsForStm]
  simp

/-- C4 (amended): the temporary collector performs no collision check and
cannot fail — it collects exactly the `(name, type)` pairs of the `Temp`s
occurring in the body, so a name used at two different types contributes two
distinct pairs and emission proceeds. -/
theorem c4_collector_collects_all :
    ∀ (body : List lir.Stm) (n : Name) (t : lir.Ty),
      (n, t) ∈ collectTemps body ↔
        ∃ s, s ∈ body ∧ lir.Exp.Temp n t ∈ operandsOf s :=
  mem_collectTemps

/-- C4 is false as stated: on a body in which `Temp 7` occurs at both `I32`
and `I64`, the collector yields the two pairs (no `IllFormedIR` report) and
the emitter proceeds and emits the whole body successfully. -/
theorem c4_counterexample :
    collectTemps [.Move (.Temp 7 .I32) (.Lit (.I32 0)),
        .Move (.Temp 7 .I64) (.Lit (.I64 0))] = [(7, .I32), (7, .I64)] ∧
    (translateBody [] [.Move (.Temp 7 .I32) (.Lit (.I32 0)),
        .Move (.Temp 7 .I64) (.Lit (.I64 0))] .init matches .ok _) := by
  constructor
  · decide
  · decide

/-! ## The fall-through rule -/

/-- The emitter's statement loop agrees with the amended-rule loop: the
`last_was_jump` flag is exactly "the most recent non-`Label`, non-`Nop`
statement is a terminator". -/
theorem stmLoop_amended (ctx : Ctx) :
    ∀ (body : List lir.Stm) (prev : Option lir.Stm) (b : llvm.Builder),
      stmLoop ctx body (termOfPrev prev) b =
        (amendedC5Loop ctx body prev b).map (fun r => (termOfPrev r.1, r.2))
  | [], prev, b => by simp [stmLoop, amendedC5Loop, Except.map]
  | .Label l :: rest, prev, b => by
      simp only [stmLoop, amendedC5Loop]
      exact stmLoop_amended ctx rest prev _
  | .Nop :: rest, prev, b => by
      simp only [stmLoop, amendedC5Loop]
      exact stmLoop_amended ctx rest prev b
  | .Jump l :: rest, prev, b => by
      simp only [stmLoop, amendedC5Loop]
      cases h : translateStm ctx (.Jump l) b with
      | error er => simp [h, Except.map]
      | ok b2 =>
          simp only [h]
          exact stmLoop_amended ctx rest (some (.Jump l)) b2
  | .CJump cmp t e :: rest, prev, b => by
      simp only [stmLoop, amendedC5Loop]
      cases h : translateStm ctx (.CJump cmp t e) b with
      | error er => simp [h, Except.map]
      | ok b2 =>
          simp only [h]
          exact stmLoop_amended ctx rest (some (.CJump cmp t e)) b2
  | .Ret exp :: rest, prev, b => by
      simp only [stmLoop, amendedC5Loop]
      cases h : translateStm ctx (.Ret exp) b with
      | error er => simp [h, Except.map]
      | ok b2 =>
          simp only [h]
          exact stmLoop_amended ctx rest (some (.Ret exp)) b2
  | .Move dst src :: rest, prev, b => by
      simp only [stmLoop, amendedC5Loop]
      cases h : translateStm ctx (.Move dst src) b with
      | error er => simp [h, Except.map]
      | ok b2 =>
          simp only [h]
          exact stmLoop_amended ctx rest (some (.Move dst src)) b2
  | .Load dst src :: rest, prev, b => by
      simp only [stmLoop, amendedC5Loop]
      cases h : translateStm ctx (.Load dst src) b with
      | error er => simp [h, Except.map]
      | ok b2 =>
          simp only [h]
          exact stmLoop_amended ctx rest (some (.Load dst src)) b2
  | .Store dst src :: rest, prev, b => by
      simp only [stmLoop, amendedC5Loop]
      cases h : translateStm ctx (.Store dst src) b with
      | error er => simp [h, Except.map]
      | ok b2 =>
          simp only [h]
          exact stmLoop_amended ctx rest (some (.Store dst src)) b2
  | .Call dst f args :: rest, prev, b => by
      simp only [stmLoop, amendedC5Loop]
      cases h : translateStm ctx (.Call dst f args) b with
      | error er => simp [h, Except.map]
      | ok b2 =>
          simp only [h]
          exact stmLoop_amended ctx rest (some (.Call dst f args)) b2
  | .Binary dst op e1 e2 :: rest, prev, b => by
      simp only [stmLoop, amendedC5Loop]
      cases h : translateStm ctx (.Binary dst op e1 e2) b with
      | error er => simp [h, Except.map]
      | ok b2 =>
          simp only [h]
          exact stmLoop_amended ctx rest (some (.Binary dst op e1 e2)) b2
  | .Unary dst op exp :: rest, prev, b => by
      simp only [stmLoop, amendedC5Loop]
      cases h : translateStm ctx (.Unary dst op exp) b with
      | error er => simp [h, Except.map]
      | ok b2 =>
          simp only [h]
          exact stmLoop_amended ctx rest (some (.Unary dst op exp)) b2
  | .Cast dst ty exp :: rest, prev, b => by
      simp only [stmLoop, amendedC5Loop]
      cases h : translateStm ctx (.Cast dst ty exp) b with
      | error er => simp [h, Except.map]
      | ok b2 =>
          simp only [h]
          exact stmLoop_amended ctx rest (some (.Cast dst ty exp)) b2
  | .GetStructElementAddr dst ty ptr idx :: rest, prev, b => by
      simp only [stmLoop, amendedC5Loop]
      cases h : translateStm ctx (.GetStructElementAddr dst ty ptr idx) b with
      | error er => simp [h, Except.map]
      | ok b2 =>
          simp only [h]
          exact stmLoop_amended ctx rest (some (.GetStructElementAddr dst ty ptr idx)) b2
  | .GetArrayElementAddr dst ty ptr idx :: rest, prev, b => by
      simp only [stmLoop, amendedC5Loop]
      cases h : translateStm ctx (.GetArrayElementAddr dst ty ptr idx) b with
      | error er => simp [h, Except.map]
      | ok b2 =>
          simp only [h]
          exact stmLoop_amended ctx rest (some (.GetArrayElementAddr dst ty ptr idx)) b2
  | .GetArrayLengthAddr dst ptr :: rest, prev, b => by
      simp only [stmLoop, amendedC5Loop]
      cases h : translateStm ctx (.GetArrayLengthAddr dst ptr) b with
      | error er => simp [h, Except.map]
      | ok b2 =>
          simp only [h]
          exact stmLoop_amended ctx rest (some (.GetArrayLengthAddr dst ptr)) b2

/-- The post-pass agrees as well, for any context and builder state. -/
theorem postLoop_amended (ctx : Ctx) (body : List lir.Stm) (b : llvm.Builder) :
    ((match stmLoop ctx body false b with
      | .error er => .error er
      | .ok (lwj, b4) =>
          if lwj then Except.ok b4
          else .ok (llvm.emit .unreachableI b4).2) : Except EmitErr llvm.Builder) =
    ((match amendedC5Loop ctx body none b with
      | .error er => .error er
      | .ok (prev, b4) =>
          if termOfPrev prev then Except.ok b4
          else .ok (llvm.emit .unreachableI b4).2) : Except EmitErr llvm.Builder) := by
  rw [show (false : Bool) = termOfPrev none from rfl, stmLoop_amended]
  cases amendedC5Loop ctx body none b with
  | error er => rfl
  | ok p =>
      obtain ⟨prev, b4⟩ := p
      rfl

/-- C5 (amended): during statement translation, a `Label(l)` gets a
fall-through `br` iff no statement other than `Label` / `Nop` has been
translated yet, or the most recent such statement was not a terminator
(`Jump`, `CJump`, `Ret`); after the body, `unreachable` is emitted under the
same condition on the body's last non-`Label`, non-`Nop` statement.  The
emitter's translation equals the amended-rule reference translation on every
body. -/
theorem c5_fallthrough_amended :
    ∀ (params : List (Name × llvm.Value)) (body : List lir.Stm)
      (b0 : llvm.Builder),
      translateBody params body b0 = amendedC5TranslateBody params body b0 := by
  intro params body b0
  simp only [translateBody, amendedC5TranslateBody]
  exact postLoop_amended _ body _

/-- C5 is false as stated: on `[Jump L1; Label L1; Label L2]` the statement
preceding `Label L2` is `Label L1` (not a terminator), yet the emitter
inserts no fall-through branch to `L2` and no trailing `unreachable` (it
emits one instruction in total), while the claimed rule would emit three. -/
theorem c5_counterexample :
    translateBody [] [.Jump 20, .Label 20, .Label 21] .init ≠
      specC5TranslateBody [] [.Jump 20, .Label 20, .Label 21] .init := by
  have h1 : (match translateBody [] [.Jump 20, .Label 20, .Label 21] .init with
      | .ok b => b.emitted.length
      | .error _ => 0) = 1 := by decide
  have h2 : (match specC5TranslateBody [] [.Jump 20, .Label 20, .Label 21] .init with
      | .ok b => b.emitted.length
      | .error _ => 0) = 3 := by decide
  intro h
  rw [h] at h1
  rw [h1] at h2
  exact absurd h2 (by decide)

/-! ## Slot-table lemmas (claim C10) -/

/-- Assoc lookup across an append. -/
theorem lookupName_append {α : Type} (n : Name) :
    ∀ l1 l2 : List (Name × α),
      lookupName n (l1 ++ l2) =
        match lookupName n l1 with
        | some v => some v
        | none => lookupName n l2
  | [], l2 => rfl
  | (m, v) :: l1, l2 => by
      simp only [List.cons_append, lookupName]
      by_cases h : n = m
      · simp [h]
      · simp [h, lookupName_append n l1 l2]

/-- The alloca loop never creates a slot for a formal parameter. -/
theorem allocaLoop_param_none (params : List (Name × llvm.Value)) :
    ∀ (temps : List (Name × lir.Ty)) (b : llvm.Builder) (n : Name),
      lookupName n params ≠ none →
      lookupName n (allocaLoop params temps b).1 = none
  | [], b, n, hp => rfl
  | (x, xty) :: rest, b, n, hp => by
      simp only [allocaLoop]
      cases hx : lookupName x params with
      | some v => exact allocaLoop_param_none params rest b n hp
      | none =>
          simp only []
          rw [lookupName_append]
          rw [allocaLoop_param_none params rest _ n hp]
          simp only [lookupName]
          have hnx : n ≠ x := fun h => hp (h ▸ hx)
          simp [hnx]


/-- Every collected non-parameter temporary receives a slot. -/
theorem allocaLoop_mem_isSome (params : List (Name × llvm.Value)) :
    ∀ (temps : List (Name × lir.Ty)) (b : llvm.Builder) (n : Name) (t : lir.Ty),
      (n, t) ∈ temps → lookupName n params = none →
      (lookupName n (allocaLoop params temps b).1).isSome = true
  | [], b, n, t, hmem, hp => absurd hmem (List.not_mem_nil _)
  | (x, xty) :: rest, b, n, t, hmem, hp => by
      simp only [allocaLoop]
      cases hx : lookupName x params with
      | some v =>
          rcases List.mem_cons.1 hmem with heq | hmem2
          · have hnx : n = x := congrArg Prod.fst heq
            rw [hnx] at hp
            rw [hp] at hx
            simp at hx
          · exact allocaLoop_mem_isSome params rest b n t hmem2 hp
      | none =>
          simp only []
          rw [lookupName_append]
          rcases List.mem_cons.1 hmem with heq | hmem2
          · have hnx : n = x := congrArg Prod.fst heq
            cases hrest : lookupName n
                (allocaLoop params rest (llvm.emit (.alloca (toType xty)) b).2).1 with
            | some v2 => simp [hrest]
            | none => simp [hrest, lookupName, hnx]
          · have ih := allocaLoop_mem_isSome params rest
              (llvm.emit (.alloca (toType xty)) b).2 n t hmem2 hp
            cases hrest : lookupName n
                (allocaLoop params rest (llvm.emit (.alloca (toType xty)) b).2).1 with
            | some v2 => simp [hrest]
            | none => rw [hrest] at ih; simp at ih

/-- `to_addr` succeeds (without touching the builder) whenever any `Temp` it
is given is present in the slot table. -/
theorem toAddr_ok (ctx : Ctx) (e : lir.Exp) (b : llvm.Builder)
    (h : ∀ n ty, e = .Temp n ty → (lookupName n ctx.temps).isSome = true) :
    ∃ v, toAddr ctx e b = .ok (v, b) := by
  cases e with
  | Global name ty => exact ⟨.globalAddr name, rfl⟩
  | Function name ty => exact ⟨.funAddr name, rfl⟩
  | Temp name ty =>
      cases hl : lookupName name ctx.temps with
      | none =>
          have := h name ty rfl
          rw [hl] at this
          simp at this
      | some v => exact ⟨v, by simp [toAddr, hl]⟩
  | Lit lit => exact ⟨litValue lit, rfl⟩

/-- `to_value` succeeds whenever any `Temp` it is given is either a formal
parameter or present in the slot table. -/
theorem toValue_ok (ctx : Ctx) (e : lir.Exp) (b : llvm.Builder)
    (h : ∀ n ty, e = .Temp n ty →
      (lookupName n ctx.params).isSome = true ∨
      (lookupName n ctx.temps).isSome = true) :
    ∃ v b2, toValue ctx e b = .ok (v, b2) := by
  cases e with
  | Global name ty => exact ⟨_, _, rfl⟩
  | Function name ty => exact ⟨_, _, rfl⟩
  | Temp name ty =>
      cases hp : lookupName name ctx.params with
      | some v => exact ⟨v, b, by simp [toValue, hp]⟩
      | none =>
          cases hl : lookupName name ctx.temps with
          | none =>
              rcases h name ty rfl with hc | hc
              · rw [hp] at hc; simp at hc
              · rw [hl] at hc; simp at hc
          | some v =>
              exact ⟨(llvm.emit (.load v) b).1, (llvm.emit (.load v) b).2,
                by simp [toValue, toAddr, hp, hl]⟩
  | Lit lit => exact ⟨litValue lit, b, rfl⟩

/-- `to_value` over an argument list succeeds under the same condition. -/
theorem toValues_ok (ctx : Ctx) :
    ∀ (args : List lir.Exp) (b : llvm.Builder),
      (∀ e ∈ args, ∀ n ty, e = .Temp n ty →
        (lookupName n ctx.params).isSome = true ∨
        (lookupName n ctx.temps).isSome = true) →
      ∃ vs b2, toValues ctx args b = .ok (vs, b2)
  | [], b, h => ⟨[], b, rfl⟩
  | e :: args, b, h => by
      obtain ⟨v, b2, hv⟩ := toValue_ok ctx e b (h e (List.mem_cons_self e args))
      obtain ⟨vs, b3, hvs⟩ :=
        toValues_ok ctx args b2 (fun e2 he2 => h e2 (List.mem_cons_of_mem e he2))
      exact ⟨v :: vs, b3, by simp [toValues, hv, hvs]⟩

/-- `translate_stm` can fail, but never with a slot-table miss, when every
operand `Temp` is a parameter or in the slot table and every address-position
`Temp` is in the slot table. -/
theorem translateStm_no_tempMiss (ctx : Ctx) (s : lir.Stm) (b : llvm.Builder)
    (hop : ∀ e ∈ operandsOf s, ∀ n ty, e = .Temp n ty →
      (lookupName n ctx.params).isSome = true ∨
      (lookupName n ctx.temps).isSome = true)
    (haddr : ∀ e ∈ addrExpsOf s, ∀ n ty, e = .Temp n ty →
      (lookupName n ctx.temps).isSome = true) :
    ∀ m, translateStm ctx s b ≠ .error (.tempMiss m) := by
  cases s with
  | Label l => intro m; simp [translateStm]
  | Nop => intro m; simp [translateStm]
  | Jump l => intro m; simp [translateStm]
  | CJump cmp t e =>
      obtain ⟨v, b2, hv⟩ := toValue_ok ctx cmp b (hop cmp (by simp [operandsOf]))
      intro m
      simp [translateStm, hv]
  | Ret exp =>
      obtain ⟨v, b2, hv⟩ := toValue_ok ctx exp b (hop exp (by simp [operandsOf]))
      intro m
      simp [translateStm, hv]
  | Store dst_addr src =>
      obtain ⟨v, b2, hv⟩ := toValue_ok ctx src b (hop src (by simp [operandsOf]))
      obtain ⟨p, hp⟩ := toAddr_ok ctx dst_addr b2 (haddr dst_addr (by simp [addrExpsOf]))
      intro m
      simp [translateStm, hv, hp]
  | Load dst src_addr =>
      obtain ⟨p, hp⟩ := toAddr_ok ctx src_addr b (haddr src_addr (by simp [addrExpsOf]))
      obtain ⟨x, hx⟩ := toAddr_ok ctx dst
        (llvm.emit (.load p) b).2 (haddr dst (by simp [addrExpsOf]))
      intro m
      simp [translateStm, hp, hx]
  | Move dst src =>
      obtain ⟨x, hx⟩ := toAddr_ok ctx dst b (haddr dst (by simp [addrExpsOf]))
      obtain ⟨v, b3, hv⟩ := toValue_ok ctx src b (hop src (by simp [operandsOf]))
      intro m
      simp [translateStm, hx, hv]
  | Call dst f args =>
      obtain ⟨fv, hf⟩ := toAddr_ok ctx f b (haddr f (by simp [addrExpsOf]))
      obtain ⟨vs, b3, hvs⟩ := toValues_ok ctx args b
        (fun e he => hop e (by simp [operandsOf, he]))
      obtain ⟨x, hx⟩ := toAddr_ok ctx dst
        (llvm.emit (.call fv vs) b3).2 (haddr dst (by simp [addrExpsOf]))
      intro m
      simp [translateStm, hf, hvs, hx]
  | Binary dst op e1 e2 =>
      obtain ⟨a1, b2, hv1⟩ := toValue_ok ctx e1 b (hop e1 (by simp [operandsOf]))
      obtain ⟨a2, b3, hv2⟩ := toValue_ok ctx e2 b2 (hop e2 (by simp [operandsOf]))
      intro m
      cases op with
      | Add_i32 =>
          obtain ⟨x, hx⟩ := toAddr_ok ctx dst
            (llvm.emit (.add a1 a2) b3).2 (haddr dst (by simp [addrExpsOf]))
          simp [translateStm, hv1, hv2, hx]
      | Add_f64 =>
          obtain ⟨x, hx⟩ := toAddr_ok ctx dst
            (llvm.emit (.fadd a1 a2) b3).2 (haddr dst (by simp [addrExpsOf]))
          simp [translateStm, hv1, hv2, hx]
      | Eq_i32 =>
          obtain ⟨x, hx⟩ := toAddr_ok ctx dst
            (llvm.emit (.icmp .EQ a1 a2) b3).2 (haddr dst (by simp [addrExpsOf]))
          simp [translateStm, hv1, hv2, hx]
      | Rotl_i32 =>
          obtain ⟨x, hx⟩ := toAddr_ok ctx dst
            (intrinsicCall fshl_i32_Name [a1, a1, a2] b3).2
            (haddr dst (by simp [addrExpsOf]))
          simp [translateStm, hv1, hv2, hx]
      | Atan2_f32 => simp [translateStm, hv1, hv2]
  | Unary dst op exp =>
      obtain ⟨e, b2, hv⟩ := toValue_ok ctx exp b (hop exp (by simp [operandsOf]))
      intro m
      cases op with
      | Not_z =>
          obtain ⟨x, hx⟩ := toAddr_ok ctx dst
            (llvm.emit (.not e) b2).2 (haddr dst (by simp [addrExpsOf]))
          simp [translateStm, hv, hx]
      | Sqrt_f64 =>
          obtain ⟨x, hx⟩ := toAddr_ok ctx dst
            (intrinsicCall sqrt_f64_Name [e] b2).2 (haddr dst (by simp [addrExpsOf]))
          simp [translateStm, hv, hx]
      | Wrap_i64_i32 =>
          obtain ⟨x, hx⟩ := toAddr_ok ctx dst
            (llvm.emit (.trunc e (toType .I32)) b2).2 (haddr dst (by simp [addrExpsOf]))
          simp [translateStm, hv, hx]
      | IsNan_f32 => simp [translateStm, hv]
  | Cast dst ty exp =>
      obtain ⟨e, b2, hv⟩ := toValue_ok ctx exp b (hop exp (by simp [operandsOf]))
      obtain ⟨x, hx⟩ := toAddr_ok ctx dst
        (llvm.emit (.bitcast e (toType ty)) b2).2 (haddr dst (by simp [addrExpsOf]))
      intro m
      simp [translateStm, hv, hx]
  | GetStructElementAddr dst ty ptr idx => intro m; simp [translateStm]
  | GetArrayElementAddr dst ty ptr idx => intro m; simp [translateStm]
  | GetArrayLengthAddr dst ptr => intro m; simp [translateStm]

/-- A statement whose destination `Temp` misses the slot table always fails
to translate (the miss is `to_addr`'s `unreachable!()`; an earlier effect of
the same statement may abort first, but the statement never succeeds). -/
theorem translateStm_dstParam_fails (ctx : Ctx) (s : lir.Stm) (b : llvm.Builder)
    (n : Name) (ty : lir.Ty) (hdst : dstOf s = some (.Temp n ty))
    (hmiss : lookupName n ctx.temps = none) :
    ∃ er, translateStm ctx s b = .error er := by
  cases s with
  | Label l => simp [dstOf] at hdst
  | Nop => simp [dstOf] at hdst
  | Jump l => simp [dstOf] at hdst
  | CJump cmp t e => simp [dstOf] at hdst
  | Ret exp => simp [dstOf] at hdst
  | Store dst_addr src => simp [dstOf] at hdst
  | GetStructElementAddr dst t2 ptr idx => exact ⟨.unimplementedStm, rfl⟩
  | GetArrayElementAddr dst t2 ptr idx => exact ⟨.unimplementedStm, rfl⟩
  | GetArrayLengthAddr dst ptr => exact ⟨.unimplementedStm, rfl⟩
  | Move dst src =>
      simp only [dstOf, Option.some.injEq] at hdst
      subst hdst
      exact ⟨.tempMiss n, by simp [translateStm, toAddr, hmiss]⟩
  | Load dst src_addr =>
      simp only [dstOf, Option.some.injEq] at hdst
      subst hdst
      cases hA : toAddr ctx src_addr b with
      | error er => exact ⟨er, by simp [translateStm, hA]⟩
      | ok p =>
          obtain ⟨pv, b2⟩ := p
          exact ⟨.tempMiss n, by
            simp only [translateStm, hA]
            simp [toAddr, hmiss]⟩
  | Call dst f args =>
      simp only [dstOf, Option.some.injEq] at hdst
      subst hdst
      cases hA : toAddr ctx f b with
      | error er => exact ⟨er, by simp [translateStm, hA]⟩
      | ok p =>
          obtain ⟨fv, b2⟩ := p
          cases hV : toValues ctx args b2 with
          | error er => exact ⟨er, by simp [translateStm, hA, hV]⟩
          | ok q =>
              obtain ⟨vs, b3⟩ := q
              exact ⟨.tempMiss n, by
                simp only [translateStm, hA, hV]
                simp [toAddr, hmiss]⟩
  | Binary dst op e1 e2 =>
      simp only [dstOf, Option.some.injEq] at hdst
      subst hdst
      cases h1 : toValue ctx e1 b with
      | error er => exact ⟨er, by simp [translateStm, h1]⟩
      | ok p =>
          obtain ⟨a1, b2⟩ := p
          cases h2 : toValue ctx e2 b2 with
          | error er => exact ⟨er, by simp [translateStm, h1, h2]⟩
          | ok q =>
              obtain ⟨a2, b3⟩ := q
              cases op with
              | Add_i32 =>
                  exact ⟨.tempMiss n, by
                    simp only [translateStm, h1, h2]
                    simp [toAddr, hmiss]⟩
              | Add_f64 =>
                  exact ⟨.tempMiss n, by
                    simp only [translateStm, h1, h2]
                    simp [toAddr, hmiss]⟩
              | Eq_i32 =>
                  exact ⟨.tempMiss n, by
                    simp only [translateStm, h1, h2]
                    simp [toAddr, hmiss]⟩
              | Rotl_i32 =>
                  exact ⟨.tempMiss n, by
                    simp only [translateStm, h1, h2]
                    simp [toAddr, hmiss]⟩
              | Atan2_f32 => exact ⟨.unimplementedOp, by simp [translateStm, h1, h2]⟩
  | Unary dst op exp =>
      simp only [dstOf, Option.some.injEq] at hdst
      subst hdst
      cases h1 : toValue ctx exp b with
      | error er => exact ⟨er, by simp [translateStm, h1]⟩
      | ok p =>
          obtain ⟨e, b2⟩ := p
          cases op with
          | Not_z =>
              exact ⟨.tempMiss n, by
                simp only [translateStm, h1]
                simp [toAddr, hmiss]⟩
          | Sqrt_f64 =>
              exact ⟨.tempMiss n, by
                simp only [translateStm, h1]
                simp [toAddr, hmiss]⟩
          | Wrap_i64_i32 =>
              exact ⟨.tempMiss n, by
                simp only [translateStm, h1]
                simp [toAddr, hmiss]⟩
          | IsNan_f32 => exact ⟨.unimplementedOp, by simp [translateStm, h1]⟩
  | Cast dst ty2 exp =>
      simp only [dstOf, Option.some.injEq] at hdst
      subst hdst
      cases h1 : toValue ctx exp b with
      | error er => exact ⟨er, by simp [translateStm, h1]⟩
      | ok p =>
          obtain ⟨e, b2⟩ := p
          exact ⟨.tempMiss n, by
            simp only [translateStm, h1]
            simp [toAddr, hmiss]⟩

/-- The statement loop on a head that is neither `Label` nor `Nop`. -/
theorem stmLoop_cons_other (ctx : Ctx) (s : lir.Stm) (rest : List lir.Stm)
    (lwj : Bool) (b : llvm.Builder) (hL : ∀ l, s ≠ .Label l) (hN : s ≠ .Nop) :
    stmLoop ctx (s :: rest) lwj b =
      match translateStm ctx s b with
      | .error er => .error er
      | .ok b2 => stmLoop ctx rest (isTerminatorStm s) b2 := by
  cases s with
  | Label l => exact absurd rfl (hL l)
  | Nop => exact absurd rfl hN
  | Jump l => rfl
  | CJump cmp t e => rfl
  | Ret exp => rfl
  | Store a c => rfl
  | Load a c => rfl
  | Move a c => rfl
  | Call a c d => rfl
  | Binary a o c d => rfl
  | Unary a o c => rfl
  | Cast a t2 c => rfl
  | GetStructElementAddr a t2 c d => rfl
  | GetArrayElementAddr a t2 c d => rfl
  | GetArrayLengthAddr a c => rfl

/-- Address positions are operands. -/
theorem addrExpsOf_subset (s : lir.Stm) : ∀ e ∈ addrExpsOf s, e ∈ operandsOf s := by
  cases s <;> simp [addrExpsOf, operandsOf]

/-- The statement loop never aborts on a slot-table miss when every statement
of the body satisfies the operand and address-position conditions. -/
theorem stmLoop_no_tempMiss (ctx : Ctx) :
    ∀ (body : List lir.Stm) (lwj : Bool) (b : llvm.Builder),
      (∀ s ∈ body,
        (∀ e ∈ operandsOf s, ∀ n ty, e = .Temp n ty →
          (lookupName n ctx.params).isSome = true ∨
          (lookupName n ctx.temps).isSome = true) ∧
        (∀ e ∈ addrExpsOf s, ∀ n ty, e = .Temp n ty →
          (lookupName n ctx.temps).isSome = true)) →
      ∀ m, stmLoop ctx body lwj b ≠ .error (.tempMiss m)
  | [], lwj, b, hall, m => by simp [stmLoop]
  | s :: rest, lwj, b, hall, m => by
      have hrest := fun s2 hs2 => hall s2 (List.mem_cons_of_mem s hs2)
      have hhead := hall s (List.mem_cons_self s rest)
      by_cases hLab : ∃ l, s = .Label l
      · obtain ⟨l, rfl⟩ := hLab
        simp only [stmLoop]
        exact stmLoop_no_tempMiss ctx rest lwj _ hrest m
      · by_cases hNop : s = .Nop
        · subst hNop
          simp only [stmLoop]
          exact stmLoop_no_tempMiss ctx rest lwj b hrest m
        · rw [stmLoop_cons_other ctx s rest lwj b (fun l h => hLab ⟨l, h⟩) hNop]
          cases h : translateStm ctx s b with
          | error er =>
              intro heq
              have her : er = .tempMiss m := by simpa using heq
              exact translateStm_no_tempMiss ctx s b hhead.1 hhead.2 m
                (by rw [← her]; exact h)
          | ok b2 => exact stmLoop_no_tempMiss ctx rest (isTerminatorStm s) b2 hrest m

/-- The statement loop aborts when some statement's destination `Temp` misses
the slot table. -/
theorem stmLoop_dstParam_fails (ctx : Ctx) :
    ∀ (body : List lir.Stm) (lwj : Bool) (b : llvm.Builder),
      (∃ s ∈ body, ∃ n ty, dstOf s = some (.Temp n ty) ∧
        lookupName n ctx.temps = none) →
      ∃ er, stmLoop ctx body lwj b = .error er
  | [], lwj, b, hex => by
      obtain ⟨s, hs, _⟩ := hex
      exact absurd hs (List.not_mem_nil s)
  | s :: rest, lwj, b, hex => by
      obtain ⟨s0, hs0, n, ty, hdst, hmiss⟩ := hex
      rcases List.mem_cons.1 hs0 with rfl | hs0r
      · have hL : ∀ l, s0 ≠ .Label l := by
          intro l h
          rw [h] at hdst
          simp [dstOf] at hdst
        have hN : s0 ≠ .Nop := by
          intro h
          rw [h] at hdst
          simp [dstOf] at hdst
        rw [stmLoop_cons_other ctx s0 rest lwj b hL hN]
        obtain ⟨er, herr⟩ := translateStm_dstParam_fails ctx s0 b n ty hdst hmiss
        rw [herr]
        exact ⟨er, rfl⟩
      · by_cases hLab : ∃ l, s = .Label l
        · obtain ⟨l, rfl⟩ := hLab
          simp only [stmLoop]
          exact stmLoop_dstParam_fails ctx rest lwj _ ⟨s0, hs0r, n, ty, hdst, hmiss⟩
        · by_cases hNop : s = .Nop
          · subst hNop
            simp only [stmLoop]
            exact stmLoop_dstParam_fails ctx rest lwj b ⟨s0, hs0r, n, ty, hdst, hmiss⟩
          · rw [stmLoop_cons_other ctx s rest lwj b (fun l h => hLab ⟨l, h⟩) hNop]
            cases h : translateStm ctx s b with
            | error er => exact ⟨er, rfl⟩
            | ok b2 =>
                exact stmLoop_dstParam_fails ctx rest (isTerminatorStm s) b2
                  ⟨s0, hs0r, n, ty, hdst, hmiss⟩

/-- Body-level part 1: a destination `Temp` naming a formal parameter makes
the whole translation abort. -/
theorem translateBody_dstParam_fails (params : List (Name × llvm.Value))
    (body : List lir.Stm) (b0 : llvm.Builder)
    (h : ∃ s ∈ body, ∃ n ty, dstOf s = some (.Temp n ty) ∧
      (lookupName n params).isSome = true) :
    ∃ er, translateBody params body b0 = .error er := by
  obtain ⟨s, hs, n, ty, hdst, hp⟩ := h
  have hmiss : ∀ (temps : List (Name × lir.Ty)) (b : llvm.Builder),
      lookupName n (allocaLoop params temps b).1 = none := by
    intro temps b
    exact allocaLoop_param_none params temps b n (by rw [Option.isSome_iff_ne_none] at hp; exact hp)
  simp only [translateBody]
  obtain ⟨er, herr⟩ := stmLoop_dstParam_fails
    ⟨params, (allocaLoop params (collectTemps body)
      (llvm.positionAtEnd (llvm.appendBB b0).1 (llvm.appendBB b0).2)).1⟩
    body false
    (allocaLoop params (collectTemps body)
      (llvm.positionAtEnd (llvm.appendBB b0).1 (llvm.appendBB b0).2)).2
    ⟨s, hs, n, ty, hdst, hmiss _ _⟩
  rw [herr]
  exact ⟨er, rfl⟩

/-- Body-level part 2 (amended): when every address-position `Temp` of the
body names a non-parameter, the slot-table `unreachable!()` is never hit. -/
theorem translateBody_no_tempMiss (params : List (Name × llvm.Value))
    (body : List lir.Stm) (b0 : llvm.Builder)
    (h : ∀ s ∈ body, ∀ e ∈ addrExpsOf s, ∀ n ty, e = .Temp n ty →
      lookupName n params = none) :
    ∀ m, translateBody params body b0 ≠ .error (.tempMiss m) := by
  intro m
  simp only [translateBody]
  have hcond : ∀ s ∈ body,
      (∀ e ∈ operandsOf s, ∀ n ty, e = .Temp n ty →
        (lookupName n params).isSome = true ∨
        (lookupName n (allocaLoop params (collectTemps body)
          (llvm.positionAtEnd (llvm.appendBB b0).1 (llvm.appendBB b0).2)).1).isSome = true) ∧
      (∀ e ∈ addrExpsOf s, ∀ n ty, e = .Temp n ty →
        (lookupName n (allocaLoop params (collectTemps body)
          (llvm.positionAtEnd (llvm.appendBB b0).1 (llvm.appendBB b0).2)).1).isSome = true) := by
    intro s hs
    constructor
    · intro e he n ty hety
      cases hp : lookupName n params with
      | some v => exact Or.inl (by simp [hp])
      | none =>
          refine Or.inr ?_
          have hc : (n, ty) ∈ collectTemps body :=
            (mem_collectTemps body n ty).2 ⟨s, hs, hety ▸ he⟩
          exact allocaLoop_mem_isSome params (collectTemps body) _ n ty hc hp
    · intro e he n ty hety
      have hp : lookupName n params = none := h s hs e he n ty hety
      have hc : (n, ty) ∈ collectTemps body :=
        (mem_collectTemps body n ty).2 ⟨s, hs, hety ▸ addrExpsOf_subset s e he⟩
      exact allocaLoop_mem_isSome params (collectTemps body) _ n ty hc hp
  cases hLoop : stmLoop
      ⟨params, (allocaLoop params (collectTemps body)
        (llvm.positionAtEnd (llvm.appendBB b0).1 (llvm.appendBB b0).2)).1⟩
      body false
      (allocaLoop params (collectTemps body)
        (llvm.positionAtEnd (llvm.appendBB b0).1 (llvm.appendBB b0).2)).2 with
  | error er =>
      intro heq
      have her : er = .tempMiss m := by simpa using heq
      exact stmLoop_no_tempMiss _ body false _ hcond m (by rw [← her]; exact hLoop)
  | ok pr =>
      obtain ⟨lwj, b4⟩ := pr
      cases lwj <;> simp

/-- C10 (amended): stack slots are allocated only for collected temporaries
that are not formal parameters.  (1) If any `Move`/`Load`/`Call`/`Binary`/
`Unary`/`Cast` statement's destination `Temp` names a formal parameter, the
`to_addr` slot lookup misses and translation of the procedure aborts.
(2) The `unreachable!()` in `to_addr` is never hit when every `Temp` in an
address position — those destinations, `Store`'s target address, `Load`'s
source address, and `Call`'s callee — names a non-parameter (the amendment:
the claim's condition on destinations alone does not cover `Store`/`Load`
addresses or `Call` callees). -/
theorem c10_param_dst_aborts :
    (∀ (p : lir.Proc) (b0 : llvm.Builder),
      (∃ s ∈ p.body, ∃ n ty, dstOf s = some (.Temp n ty) ∧
        (lookupName n (paramsMap p.params 0)).isSome = true) →
      ∃ er, translateProc p b0 = .error er) ∧
    (∀ (p : lir.Proc) (b0 : llvm.Builder),
      (∀ s ∈ p.body, ∀ e ∈ addrExpsOf s, ∀ n ty, e = .Temp n ty →
        lookupName n (paramsMap p.params 0) = none) →
      ∀ m, translateProc p b0 ≠ .error (.tempMiss m)) := by
  constructor
  · intro p b0 h
    exact translateBody_dstParam_fails _ _ _ h
  · intro p b0 h
    exact translateBody_no_tempMiss _ _ _ h

/-- Witness for C10 at concrete inputs: a `Move` into the parameter `9`
aborts; a body whose address-position temps avoid the parameter never hits
the slot-table miss. -/
theorem c10_param_dst_aborts_witness :
    (∃ er, translateProc ⟨.I32, 1, [⟨.I32, 9⟩],
        [.Move (.Temp 9 .I32) (.Lit (.I32 0))]⟩ .init = .error er) ∧
    (∀ m, translateProc ⟨.I32, 1, [⟨.I32, 9⟩],
        [.Move (.Temp 8 .I32) (.Temp 9 .I32)]⟩ .init ≠ .error (.tempMiss m)) := by
  constructor
  · refine c10_param_dst_aborts.1 _ .init ⟨.Move (.Temp 9 .I32) (.Lit (.I32 0)),
      by simp, 9, .I32, by decide, by decide⟩
  · refine c10_param_dst_aborts.2 _ .init ?_
    intro s hs e he n ty hety
    simp only [List.mem_singleton] at hs
    subst hs
    simp only [addrExpsOf, List.mem_singleton] at he
    subst he
    injection hety with h1 h2
    subst h1
    rfl

/-- C10 is false as stated: in a procedure whose `Call` callee is the
parameter `Temp 9` while every destination `Temp` (here `Temp 8`) is a
non-parameter temporary of the body, `to_addr`'s unreachable branch is still
hit — the translation aborts with a slot-table miss on `9`. -/
theorem c10_counterexample :
    (∀ s ∈ ([.Call (.Temp 8 .I32) (.Temp 9 (.Fun .I32 .nil)) []] : List lir.Stm),
      ∀ n ty, dstOf s = some (.Temp n ty) →
        lookupName n (paramsMap [⟨.Fun .I32 .nil, 9⟩] 0) = none) ∧
    translateProc ⟨.I32, 1, [⟨.Fun .I32 .nil, 9⟩],
        [.Call (.Temp 8 .I32) (.Temp 9 (.Fun .I32 .nil)) []]⟩ .init =
      .error (.tempMiss 9) := by
  constructor
  · intro s hs n ty hdst
    simp only [List.mem_singleton] at hs
    subst hs
    simp only [dstOf, Option.some.injEq] at hdst
    injection hdst with h1 h2
    subst h1
    rfl
  · rfl
